import Mathlib

/-!
# Static Huffman codec (`huffman_complete.cpp`)

A shallow embedding of `huffman_encode` / `huffman_decode` and of the helpers they call.

Modelling conventions.

* A byte is a natural number below 256; a buffer is a `List Nat`; a `std::string` is the
  list of its character codes (`'0'` is 48, `'1'` is 49).
* A `HuffmanNode*` is either `null` or a node carrying the four fields of the struct.
* `std::unordered_map` is an association list with distinct keys, kept in insertion order.
  The order in which a range-`for` visits it is not fixed by the language; it is supplied by
  the `StdLib` parameter, as is the choice `std::priority_queue::top` makes among several
  nodes of lowest frequency.
* An access outside a buffer has no defined behaviour; the embedding reports it as
  `Outcome.undefined`.
* `huffman_decode` declares `reverseCode` with the `HuffmanCodeMap` typedef but indexes it
  with strings and reads bytes out of it; it is embedded as the map from bit-strings to
  bytes that these uses require.
-/

namespace Huffman

/-! ## Data model -/

/-- A `HuffmanNode*`: the null pointer, or a node with fields `data`, `freq`, `left`, `right`. -/
inductive HuffmanNode where
  | null : HuffmanNode
  | node (data : Nat) (freq : Nat) (left right : HuffmanNode) : HuffmanNode
  deriving DecidableEq

/-- The constructor `HuffmanNode(data, freq)`: both children are null. -/
def HuffmanNode.leaf (data freq : Nat) : HuffmanNode :=
  .node data freq .null .null

/-- Field access `p->freq`. -/
def HuffmanNode.freq : HuffmanNode → Nat
  | .null => 0
  | .node _ f _ _ => f

/-- The comparator of the priority queue: `l->freq > r->freq`. -/
def CompareNode (l r : HuffmanNode) : Bool :=
  decide (l.freq > r.freq)

/-- What the C++ standard library leaves open: the iteration order of the two unordered maps
(each a permutation of the entries) and the tie-break of the priority queue. -/
structure StdLib where
  freqOrder : List (Nat × Nat) → List (Nat × Nat)
  freqOrder_perm : ∀ m, List.Perm (freqOrder m) m
  codeOrder : List (Nat × List Nat) → List (Nat × List Nat)
  codeOrder_perm : ∀ m, List.Perm (codeOrder m) m
  tie : List HuffmanNode → Nat

/-- One admissible library: maps are visited in insertion order and the queue returns the
oldest of the lowest-frequency nodes. -/
def StdLib.simple : StdLib where
  freqOrder := id
  freqOrder_perm := fun m => List.Perm.refl m
  codeOrder := id
  codeOrder_perm := fun m => List.Perm.refl m
  tie := fun _ => 0

/-- Another admissible library: maps are visited newest entry first. -/
def StdLib.reversed : StdLib where
  freqOrder := List.reverse
  freqOrder_perm := fun m => List.reverse_perm m
  codeOrder := List.reverse
  codeOrder_perm := fun m => List.reverse_perm m
  tie := fun _ => 0

/-- The type `HuffmanCodeMap`: byte value to code string. -/
abbrev HuffmanCodeMap := List (Nat × List Nat)

/-- Assignment `m[k] = v` on an unordered map: overwrite the entry of `k`, or add one. -/
def mapSet {κ β : Type} [DecidableEq κ] (m : List (κ × β)) (k : κ) (v : β) : List (κ × β) :=
  match m with
  | [] => [(k, v)]
  | (k', v') :: t => if k' = k then (k', v) :: t else (k', v') :: mapSet t k v

/-- The statement `freq[x]++` on the frequency map (counts are `unsigned`). -/
def freqIncr (m : List (Nat × Nat)) (x : Nat) : List (Nat × Nat) :=
  match m with
  | [] => [(x, 1)]
  | (k, c) :: t => if k = x then (k, (c + 1) % 2 ^ 32) :: t else (k, c) :: freqIncr t x

/-- The frequency-counting loop of `huffman_encode`. -/
def countFreq (bufin : List Nat) : List (Nat × Nat) :=
  bufin.foldl freqIncr []

/-! ## Priority queue -/

/-- The nodes `top()` may return: those that the comparator orders before no other node. -/
def pqTops (q : List HuffmanNode) : List HuffmanNode :=
  q.filter (fun t => q.all (fun r => !CompareNode t r))

/-- `pq.top()`. -/
def pqTop (L : StdLib) (q : List HuffmanNode) : HuffmanNode :=
  (pqTops q).getD (L.tie q % (pqTops q).length) .null

/-- `pq.pop()`: removes the node `top()` returns. -/
def pqPop (L : StdLib) (q : List HuffmanNode) : List HuffmanNode :=
  q.erase (pqTop L q)

/-- `pq.push(t)`. -/
def pqPush (q : List HuffmanNode) (t : HuffmanNode) : List HuffmanNode :=
  q ++ [t]

/-- The loop pushing one leaf per entry of the frequency map. -/
def initQueue (L : StdLib) (freq : List (Nat × Nat)) : List HuffmanNode :=
  (L.freqOrder freq).foldl (fun q p => pqPush q (HuffmanNode.leaf p.1 p.2)) []

/-- The merge loop `while (pq.size() > 1)`; `fuel` bounds the number of iterations. -/
def buildTree (L : StdLib) : Nat → List HuffmanNode → List HuffmanNode
  | 0, q => q
  | fuel + 1, q =>
    if q.length > 1 then
      let left := pqTop L q
      let q1 := pqPop L q
      let right := pqTop L q1
      let q2 := pqPop L q1
      let node := HuffmanNode.node 0 ((left.freq + right.freq) % 2 ^ 32) left right
      buildTree L fuel (pqPush q2 node)
    else q

/-! ## Code table -/

/-- The recursive walk `buildCodeMap(root, str, huffmanCode)`. -/
def buildCodeMap : HuffmanNode → List Nat → HuffmanCodeMap → HuffmanCodeMap
  | .null, _, m => m
  | .node d _ l r, str, m =>
    let m1 := if l = .null ∧ r = .null then mapSet m d str else m
    let m2 := buildCodeMap l (str ++ [48]) m1
    buildCodeMap r (str ++ [49]) m2

/-- The priority queue of `huffman_encode` when the merge loop has ended. -/
def finalQueue (L : StdLib) (bufin : List Nat) : List HuffmanNode :=
  buildTree L (initQueue L (countFreq bufin)).length (initQueue L (countFreq bufin))

/-- The code table `huffmanCode` of `huffman_encode`, in insertion order. -/
def codeTable (L : StdLib) (bufin : List Nat) : HuffmanCodeMap :=
  buildCodeMap (pqTop L (finalQueue L bufin)) [] []

/-- The read `huffmanCode[x]`. Every input byte is a key of the table
(`mem_codeTable_keys`), so `operator[]` never creates an entry; the default `[]` is not
reached. -/
def codeOf (m : HuffmanCodeMap) (x : Nat) : List Nat :=
  (m.lookup x).getD []

/-- The loop concatenating the codes of the input bytes. -/
def encodeBits (m : HuffmanCodeMap) (bufin : List Nat) : List Nat :=
  bufin.foldl (fun s x => s ++ codeOf m x) []

/-- The padding step: `8 - size % 8` characters `'0'` are appended. -/
def padBits (s : List Nat) : List Nat :=
  s ++ List.replicate (8 - s.length % 8) 48

/-- The string `encodedStr` of `huffman_encode` after padding. -/
def encodedStr (L : StdLib) (bufin : List Nat) : List Nat :=
  padBits (encodeBits (codeTable L bufin) bufin)

/-- The value `std::bitset<8>(s).to_ulong()` for a string of `'0'` and `'1'`, first
character most significant. The strings `huffman_encode` passes hold no other character
(`codes_chars`, `padBits`). -/
def bitsetOfString (s : List Nat) : Nat :=
  s.foldl (fun acc c => 2 * acc + (if c = 49 then 1 else 0)) 0

/-! ## Output buffer -/

/-- The output block of `huffman_encode` with the running index `idx`. -/
structure OutBuf where
  mem : List Nat
  idx : Nat
  deriving DecidableEq

/-- The store `(*pbufout)[idx++] = v`: defined only inside the block, and only while the
`int` index can still be incremented. -/
def OutBuf.put (o : OutBuf) (v : Nat) : Option OutBuf :=
  if o.idx < o.mem.length ∧ o.idx + 1 < 2 ^ 31 then
    some ⟨o.mem.set o.idx (v % 256), o.idx + 1⟩
  else none

/-- The body of the header loop: byte value, code length, then one byte per code character. -/
def writeRecord (o : OutBuf) (p : Nat × List Nat) : Option OutBuf :=
  (o.put p.1).bind fun o1 =>
  (o1.put p.2.length).bind fun o2 =>
  p.2.foldlM OutBuf.put o2

/-- The header loop over the code table. -/
def writeHeader (o : OutBuf) (m : HuffmanCodeMap) : Option OutBuf :=
  m.foldlM writeRecord o

/-- The packing loop `for (i = 0; i < encodedStr.size(); i += 8)`. -/
def writeBody : Nat → Nat → List Nat → OutBuf → Option OutBuf
  | 0, _, _, o => some o
  | fuel + 1, i, s, o =>
    if i < s.length then
      (o.put (bitsetOfString ((s.drop i).take 8))).bind (writeBody fuel (i + 8) s)
    else some o

/-- The two outputs of a call: the block stored in `*pbufout` and the value of
`*pbufoutlen`. -/
structure Output where
  buf : List Nat
  len : Nat
  deriving DecidableEq

/-- How a call ends: it returns a status, having written its outputs or not, or it makes an
access with no defined behaviour. -/
inductive Outcome where
  | returned (status : Int) (out : Option Output) : Outcome
  | undefined : Outcome
  deriving DecidableEq

/-- The capacity `encodedStr.size() / 8 + 256` stored into the `uint32_t` `*pbufoutlen`
and passed to `malloc`. -/
def encodeCapacity (L : StdLib) (bufin : List Nat) : Nat :=
  ((encodedStr L bufin).length / 8 + 256) % 2 ^ 32

/-- The stores of `huffman_encode` into the zero-filled block: header, sentinel, body. -/
def encodeWrites (L : StdLib) (bufin : List Nat) : Option OutBuf :=
  ((writeHeader ⟨List.replicate (encodeCapacity L bufin) 0, 0⟩
      (L.codeOrder (codeTable L bufin))).bind
    fun o => o.put 0).bind
    fun o => writeBody (encodedStr L bufin).length 0 (encodedStr L bufin) o

/-- The function `huffman_encode`; `none` is the null pointer. -/
def huffman_encode (L : StdLib) (bufin : Option (List Nat)) : Outcome :=
  match bufin with
  | none => .returned (-1) none
  | some b =>
    if b.length = 0 then .returned (-1) none
    else
      match encodeWrites L b with
      | none => .undefined
      | some o => .returned 0 (some ⟨o.mem, o.idx % 2 ^ 32⟩)

/-! ## Decoder -/

/-- The inner loop reading `len` code characters from `bufin[idx]` on. -/
def readCode (bufin : List Nat) : Nat → Nat → List Nat → Option (List Nat × Nat)
  | 0, idx, code => some (code, idx)
  | n + 1, idx, code =>
    match bufin.get? idx with
    | none => none
    | some c => readCode bufin n (idx + 1) (code ++ [c])

/-- The header loop `while (bufin[idx] != 0)`; the result is the index of the sentinel and
the reverse table, or `none` when a read falls outside the buffer. -/
def parseHeader (bufin : List Nat) :
    Nat → Nat → List (List Nat × Nat) → Option (Nat × List (List Nat × Nat))
  | 0, _, _ => none
  | fuel + 1, idx, rc =>
    match bufin.get? idx with
    | none => none
    | some d =>
      if d = 0 then some (idx, rc)
      else
        match bufin.get? (idx + 1) with
        | none => none
        | some len =>
          match readCode bufin len (idx + 2) [] with
          | none => none
          | some (code, idx') => parseHeader bufin fuel idx' (mapSet rc code d)

/-- The string `std::bitset<8>(v).to_string()`. -/
def bitsetToString (v : Nat) : List Nat :=
  [7, 6, 5, 4, 3, 2, 1, 0].map fun i => if v / 2 ^ i % 2 = 1 then 49 else 48

/-- The loop expanding the bytes from `idx` to the end into characters. -/
def unpackBits (bufin : List Nat) (idx : Nat) : List Nat :=
  (bufin.drop idx).foldl (fun s v => s ++ bitsetToString v) []

/-- The variables of the matching loop. -/
structure DecState where
  decodedVec : List Nat
  current : List Nat
  deriving DecidableEq

/-- One iteration of the matching loop. -/
def decodeStep (rc : List (List Nat × Nat)) (st : DecState) (bit : Nat) : DecState :=
  match rc.lookup (st.current ++ [bit]) with
  | some d => ⟨st.decodedVec ++ [d], []⟩
  | none => ⟨st.decodedVec, st.current ++ [bit]⟩

/-- The matching loop over the unpacked characters. -/
def decodeBits (rc : List (List Nat × Nat)) (s : List Nat) : List Nat :=
  (s.foldl (decodeStep rc) ⟨[], []⟩).decodedVec

/-- The function `huffman_decode`; `none` is the null pointer. The length is stored into the
`uint32_t` `*pbufoutlen`, and the block holds that many bytes of `decodedVec` and a final
zero byte. -/
def huffman_decode (bufin : Option (List Nat)) : Outcome :=
  match bufin with
  | none => .returned (-1) none
  | some b =>
    if b.length = 0 then .returned (-1) none
    else
      match parseHeader b (b.length + 1) 0 [] with
      | none => .undefined
      | some (idx, rc) =>
        let decodedVec := decodeBits rc (unpackBits b (idx + 1))
        let len := decodedVec.length % 2 ^ 32
        .returned 0 (some ⟨decodedVec.take len ++ [0], len⟩)

/-- The frame a successful call of `huffman_encode` hands back: the first `len` bytes of
the block. -/
def Outcome.frame : Outcome → Option (List Nat)
  | .returned _ (some out) => some (out.buf.take out.len)
  | _ => none

/-! ## Reasoning vocabulary for trees -/

/-- The nodes `huffman_encode` builds: a leaf, or a node with two built nodes as children. -/
inductive HuffmanNode.Proper : HuffmanNode → Prop
  | leaf (d f : Nat) : HuffmanNode.Proper (.node d f .null .null)
  | inner (d f : Nat) (l r : HuffmanNode) :
      HuffmanNode.Proper l → HuffmanNode.Proper r → HuffmanNode.Proper (.node d f l r)

/-- The `(data, freq)` pairs of the childless nodes, left to right. -/
def HuffmanNode.leaves : HuffmanNode → List (Nat × Nat)
  | .null => []
  | .node d f l r =>
    (if l = .null ∧ r = .null then [(d, f)] else []) ++ (l.leaves ++ r.leaves)

/-- The `(data, path)` pairs of the childless nodes below a node reached by `str`. -/
def HuffmanNode.codes : HuffmanNode → List Nat → List (Nat × List Nat)
  | .null, _ => []
  | .node d _ l r, str =>
    (if l = .null ∧ r = .null then [(d, str)] else []) ++
      (l.codes (str ++ [48]) ++ r.codes (str ++ [49]))

/-- Two strings of which neither is a prefix of the other. -/
def Incomparable (c d : List Nat) : Prop := ¬ c <+: d ∧ ¬ d <+: c

/-! ## Frame layout in closed form -/

/-- One header record as the format states it: byte value, code length, code characters. -/
def recordBytes (p : Nat × List Nat) : List Nat :=
  p.1 :: p.2.length :: p.2

/-- The header records of a code table, in the given order. -/
def headerBytes (m : HuffmanCodeMap) : List Nat :=
  m.flatMap recordBytes

/-- The packed bitstream: the `k`-th byte is the value of characters `8k .. 8k+7`. -/
def packedBody (s : List Nat) : List Nat :=
  (List.range (s.length / 8)).map fun k => bitsetOfString ((s.drop (8 * k)).take 8)

/-- The frame as the format states it: records, sentinel, packed bitstream. -/
def frameLayout (L : StdLib) (bufin : List Nat) : List Nat :=
  headerBytes (L.codeOrder (codeTable L bufin)) ++ [0] ++ packedBody (encodedStr L bufin)

/-- The bytes the packing loop stores, as a list. -/
def bodyBytes : Nat → Nat → List Nat → List Nat
  | 0, _, _ => []
  | fuel + 1, i, s =>
    if i < s.length then bitsetOfString ((s.drop i).take 8) :: bodyBytes fuel (i + 8) s
    else []

/-- A block of `cap` bytes of which the first `w.length` hold `w`, the rest still zero. -/
def bufOf (cap : Nat) (w : List Nat) : OutBuf :=
  ⟨w ++ List.replicate (cap - w.length) 0, w.length⟩

/-- A buffer holding each of the byte values 1 to 128 once. -/
def wideInput : List Nat := (List.range 128).map (· + 1)

/-- The bit a character of a code string stands for: 1 for `'1'`, 0 otherwise. -/
def bitValue (c : Nat) : Nat := if c = 49 then 1 else 0

/-- The Kraft sum of a code table: the sum of `2^(-length)` over its codes. -/
def kraftSum (m : HuffmanCodeMap) : ℚ :=
  (m.map fun p => (1 / 2 : ℚ) ^ p.2.length).sum

/-! ## Reasoning vocabulary for weights and costs -/

/-- One iteration of the merge loop on a queue with more than one node. -/
def mergeStep (L : StdLib) (q : List HuffmanNode) : List HuffmanNode :=
  pqPush (pqPop L (pqPop L q))
    (HuffmanNode.node 0 (((pqTop L q).freq + (pqTop L (pqPop L q)).freq) % 2 ^ 32)
      (pqTop L q) (pqTop L (pqPop L q)))

/-- The sum of the counts held by the childless nodes of a tree. -/
def HuffmanNode.weight (t : HuffmanNode) : Nat :=
  (t.leaves.map Prod.snd).sum

/-- Every node with a child carries the sum of its children's `freq`. -/
def HuffmanNode.FreqSums : HuffmanNode → Prop
  | .null => True
  | .node _ f l r => (l = .null ∧ r = .null) ∨ (f = l.freq + r.freq ∧ l.FreqSums ∧ r.FreqSums)

/-- The weighted path length of a tree: the sum over childless nodes of count times depth. -/
def HuffmanNode.cost : HuffmanNode → Nat
  | .null => 0
  | .node _ _ l r =>
    if l = .null ∧ r = .null then 0
    else l.cost + r.cost + (l.leaves.map Prod.snd).sum + (r.leaves.map Prod.snd).sum

/-- The count the frequency table holds for a byte value (0 when it has no entry). -/
def freqOf (freq : List (Nat × Nat)) (k : Nat) : Nat :=
  (freq.lookup k).getD 0

/-- The total encoded length a code table gives: the sum over its entries of count times
code length. -/
def tableCost (freq : List (Nat × Nat)) (m : HuffmanCodeMap) : Nat :=
  (m.map fun p => freqOf freq p.1 * p.2.length).sum

/-- The sum of weight times depth over a list of `(weight, depth)` pairs. -/
def pairCost (P : List (Nat × Nat)) : Nat :=
  (P.map fun p => p.1 * p.2).sum

/-- The Kraft sum of the depths of a list of `(weight, depth)` pairs. -/
def pairKraft (P : List (Nat × Nat)) : ℚ :=
  (P.map fun p => (1 / 2 : ℚ) ^ p.2).sum

/-- What the merge loop keeps true of its queue, for a frequency table `F0`: every tree is
full and carries child sums, the leaves of the forest are the entries of `F0`, and any depth
assignment for the entries of `F0` with Kraft sum at most 1 costs at least as much as the
forest built so far plus some such assignment for its roots. -/
def QueueInv (F0 : List (Nat × Nat)) (q : List HuffmanNode) : Prop :=
  (∀ t ∈ q, t.Proper ∧ t.FreqSums) ∧
    (q.flatMap HuffmanNode.leaves).Perm F0 ∧
    ∀ P0 : List (Nat × Nat), (P0.map Prod.fst).Perm (F0.map Prod.snd) → pairKraft P0 ≤ 1 →
      ∃ P : List (Nat × Nat), (P.map Prod.fst).Perm (q.map HuffmanNode.freq) ∧
        pairKraft P ≤ 1 ∧ (q.map HuffmanNode.cost).sum + pairCost P ≤ pairCost P0

/-- The entries of a code table whose code starts with the character `x`, with that first
character removed. -/
def tailsOf (x : Nat) (m : HuffmanCodeMap) : HuffmanCodeMap :=
  m.filterMap fun p =>
    match p.2 with
    | [] => none
    | c :: t => if c = x then some (p.1, t) else none

/-- Distinct entries of the table have codes of which neither is a prefix of the other. -/
def PrefixFree (m : HuffmanCodeMap) : Prop :=
  ∀ p ∈ m, ∀ q ∈ m, p ≠ q → Incomparable p.2 q.2

/-! # Theorems -/

theorem HuffmanNode.Proper.ne_null {t : HuffmanNode} (h : t.Proper) : t ≠ .null := by
  cases h <;> simp

theorem HuffmanNode.Proper.leaves_pos {t : HuffmanNode} (h : t.Proper) : 0 < t.leaves.length := by
  induction h with
  | leaf d f => simp [HuffmanNode.leaves]
  | inner d f l r hl hr ihl ihr =>
    simp [HuffmanNode.leaves, List.length_append]
    omega

theorem codes_keys (t : HuffmanNode) (str : List Nat) :
    (t.codes str).map Prod.fst = t.leaves.map Prod.fst := by
  induction t generalizing str with
  | null => simp [HuffmanNode.codes, HuffmanNode.leaves]
  | node d f l r ihl ihr =>
    simp only [HuffmanNode.codes, HuffmanNode.leaves, List.map_append, ihl, ihr]
    split <;> simp

theorem codes_extend (t : HuffmanNode) (str : List Nat) :
    ∀ p ∈ t.codes str, str <+: p.2 := by
  induction t generalizing str with
  | null => simp [HuffmanNode.codes]
  | node d f l r ihl ihr =>
    intro p hp
    simp only [HuffmanNode.codes, List.mem_append] at hp
    rcases hp with hp | hp | hp
    · split at hp
      · simp at hp; subst hp; exact List.prefix_refl _
      · simp at hp
    · exact (List.prefix_append str [48]).trans (ihl _ p hp)
    · exact (List.prefix_append str [49]).trans (ihr _ p hp)

theorem incomparable_of_split {str c d : List Nat} (hc : (str ++ [48]) <+: c)
    (hd : (str ++ [49]) <+: d) : Incomparable c d := by
  have key : ∀ e : List Nat, (str ++ [48]) <+: e → (str ++ [49]) <+: e → False := by
    intro e h0 h1
    have h := List.prefix_of_prefix_length_le h0 h1 (by simp)
    have h' := h.eq_of_length (by simp)
    simp at h'
  constructor
  · intro h; exact key d (hc.trans h) hd
  · intro h; exact key c hc (hd.trans h)

theorem codes_pairwise (t : HuffmanNode) (str : List Nat) :
    (t.codes str).Pairwise (fun p q => Incomparable p.2 q.2) := by
  induction t generalizing str with
  | null => simp [HuffmanNode.codes]
  | node d f l r ihl ihr =>
    simp only [HuffmanNode.codes]
    by_cases hleaf : l = .null ∧ r = .null
    · obtain ⟨rfl, rfl⟩ := hleaf
      simp [HuffmanNode.codes]
    · rw [if_neg hleaf, List.nil_append, List.pairwise_append]
      refine ⟨ihl _, ihr _, ?_⟩
      intro p hp q hq
      exact incomparable_of_split (codes_extend l _ p hp) (codes_extend r _ q hq)

theorem codes_length_le {t : HuffmanNode} (h : t.Proper) (str : List Nat) :
    ∀ p ∈ t.codes str, p.2.length + 1 ≤ str.length + t.leaves.length := by
  induction h generalizing str with
  | leaf d f => simp [HuffmanNode.codes, HuffmanNode.leaves]
  | inner d f l r hl hr ihl ihr =>
    intro p hp
    have hne : ¬ (l = .null ∧ r = .null) := fun h => hl.ne_null h.1
    simp only [HuffmanNode.codes, HuffmanNode.leaves, if_neg hne, List.nil_append,
      List.mem_append, List.length_append] at hp ⊢
    have pl := hl.leaves_pos
    have pr := hr.leaves_pos
    rcases hp with hp | hp
    · have := ihl _ p hp
      simp at this; omega
    · have := ihr _ p hp
      simp at this; omega

/-! ## Unordered maps -/

theorem mapSet_fresh {κ β : Type} [DecidableEq κ] (m : List (κ × β)) (k : κ) (v : β)
    (h : k ∉ m.map Prod.fst) : mapSet m k v = m ++ [(k, v)] := by
  induction m with
  | nil => rfl
  | cons p t ih =>
    obtain ⟨k', v'⟩ := p
    simp only [List.map_cons, List.mem_cons, not_or] at h
    have hne : ¬ k' = k := fun e => h.1 e.symm
    simp [mapSet, hne, ih h.2]

theorem buildCodeMap_eq (t : HuffmanNode) (str : List Nat) (m : HuffmanCodeMap)
    (h : ((m ++ t.codes str).map Prod.fst).Nodup) :
    buildCodeMap t str m = m ++ t.codes str := by
  induction t generalizing str m with
  | null => simp [buildCodeMap, HuffmanNode.codes]
  | node d f l r ihl ihr =>
    simp only [buildCodeMap, HuffmanNode.codes] at h ⊢
    by_cases hleaf : l = .null ∧ r = .null
    · obtain ⟨rfl, rfl⟩ := hleaf
      simp only [and_self, if_true, buildCodeMap, HuffmanNode.codes, List.append_nil] at h ⊢
      apply mapSet_fresh
      rw [List.map_append, List.nodup_append] at h
      intro hd
      exact h.2.2 hd (by simp)
    · simp only [if_neg hleaf, List.nil_append] at h ⊢
      rw [← List.append_assoc] at h
      have h1 : ((m ++ l.codes (str ++ [48])).map Prod.fst).Nodup := by
        rw [List.map_append] at h
        exact (List.nodup_append.1 h).1
      rw [ihl _ _ h1, ihr _ _ h, List.append_assoc]

theorem freqIncr_keys (m : List (Nat × Nat)) (x : Nat) :
    (freqIncr m x).map Prod.fst =
      if x ∈ m.map Prod.fst then m.map Prod.fst else m.map Prod.fst ++ [x] := by
  induction m with
  | nil => simp [freqIncr]
  | cons p t ih =>
    obtain ⟨k, c⟩ := p
    by_cases hk : k = x
    · subst hk; simp [freqIncr]
    · have hk' : ¬ x = k := fun e => hk e.symm
      simp only [freqIncr, if_neg hk, List.map_cons, ih, List.mem_cons, hk', false_or]
      split <;> simp

theorem foldl_freqIncr_keys (b : List Nat) (m : List (Nat × Nat))
    (hm : (m.map Prod.fst).Nodup) :
    ((b.foldl freqIncr m).map Prod.fst).Nodup ∧
      ∀ x, x ∈ (b.foldl freqIncr m).map Prod.fst ↔ x ∈ m.map Prod.fst ∨ x ∈ b := by
  induction b generalizing m with
  | nil => simp [hm]
  | cons y t ih =>
    have hn : ((freqIncr m y).map Prod.fst).Nodup := by
      rw [freqIncr_keys]
      split
      · exact hm
      · next hy =>
        rw [List.nodup_append]
        refine ⟨hm, by simp, ?_⟩
        intro a ha hb
        simp at hb; subst hb; exact hy ha
    obtain ⟨h1, h2⟩ := ih (freqIncr m y) hn
    refine ⟨h1, ?_⟩
    intro x
    rw [List.foldl_cons, h2, freqIncr_keys]
    split
    · next hy =>
      simp only [List.mem_cons]
      constructor
      · rintro (h | h)
        · exact Or.inl h
        · exact Or.inr (Or.inr h)
      · rintro (h | h | h)
        · exact Or.inl h
        · subst h; exact Or.inl hy
        · exact Or.inr h
    · simp only [List.mem_append, List.mem_singleton, List.mem_cons]
      tauto

theorem countFreq_keys_nodup (b : List Nat) : ((countFreq b).map Prod.fst).Nodup :=
  (foldl_freqIncr_keys b [] (by simp)).1

theorem mem_countFreq_keys (b : List Nat) (x : Nat) :
    x ∈ (countFreq b).map Prod.fst ↔ x ∈ b := by
  have := (foldl_freqIncr_keys b [] (by simp)).2 x
  simpa [countFreq] using this

/-! ## Priority queue and merge loop -/

theorem exists_min_freq (q : List HuffmanNode) (h : q ≠ []) :
    ∃ t ∈ q, ∀ r ∈ q, t.freq ≤ r.freq := by
  induction q with
  | nil => exact absurd rfl h
  | cons a t ih =>
    by_cases ht : t = []
    · subst ht; exact ⟨a, by simp, by simp⟩
    · obtain ⟨m, hm, hmin⟩ := ih ht
      by_cases hle : a.freq ≤ m.freq
      · refine ⟨a, by simp, ?_⟩
        intro r hr
        rcases List.mem_cons.1 hr with rfl | hr
        · exact le_refl _
        · exact le_trans hle (hmin r hr)
      · refine ⟨m, List.mem_cons_of_mem _ hm, ?_⟩
        intro r hr
        rcases List.mem_cons.1 hr with rfl | hr
        · omega
        · exact hmin r hr

theorem mem_pqTops {q : List HuffmanNode} {t : HuffmanNode} :
    t ∈ pqTops q ↔ t ∈ q ∧ ∀ r ∈ q, t.freq ≤ r.freq := by
  simp [pqTops, CompareNode, List.mem_filter, List.all_eq_true]

theorem pqTop_mem_pqTops (L : StdLib) {q : List HuffmanNode} (h : q ≠ []) :
    pqTop L q ∈ pqTops q := by
  obtain ⟨t, ht, hmin⟩ := exists_min_freq q h
  have hpos : 0 < (pqTops q).length :=
    List.length_pos_of_mem (mem_pqTops.2 ⟨ht, hmin⟩)
  unfold pqTop
  rw [List.getD_eq_getElem _ _ (Nat.mod_lt _ hpos)]
  exact List.getElem_mem _

theorem pqTop_mem (L : StdLib) {q : List HuffmanNode} (h : q ≠ []) : pqTop L q ∈ q :=
  (mem_pqTops.1 (pqTop_mem_pqTops L h)).1

theorem pqTop_le (L : StdLib) {q : List HuffmanNode} (h : q ≠ []) :
    ∀ r ∈ q, (pqTop L q).freq ≤ r.freq :=
  (mem_pqTops.1 (pqTop_mem_pqTops L h)).2

theorem pqTop_singleton (L : StdLib) (t : HuffmanNode) : pqTop L [t] = t := by
  have := pqTop_mem L (q := [t]) (by simp)
  simpa using this

theorem leaves_node_of_ne_null (d f : Nat) {l r : HuffmanNode} (hl : l ≠ .null) :
    (HuffmanNode.node d f l r).leaves = l.leaves ++ r.leaves := by
  simp [HuffmanNode.leaves, hl]

theorem merge_perm (L : StdLib) {q : List HuffmanNode} (h : 1 < q.length) :
    pqTop L q ∈ q ∧ pqTop L (pqPop L q) ∈ pqPop L q ∧
      q.Perm (pqTop L q :: pqTop L (pqPop L q) :: pqPop L (pqPop L q)) := by
  have hq : q ≠ [] := by intro e; subst e; simp at h
  have h1 := pqTop_mem L hq
  have hlen : (pqPop L q).length = q.length - 1 := by
    unfold pqPop; exact List.length_erase_of_mem h1
  have hq1 : pqPop L q ≠ [] := by
    intro e; rw [e] at hlen; simp at hlen; omega
  have h2 := pqTop_mem L hq1
  refine ⟨h1, h2, ?_⟩
  exact (List.perm_cons_erase h1).trans ((List.perm_cons_erase h2).cons _)

theorem queue_single (q : List HuffmanNode) (hq : q ≠ []) (hp : ∀ t ∈ q, t.Proper)
    (h1 : q.length ≤ 1) :
    ∃ root, q = [root] ∧ root.Proper ∧ root.leaves.Perm (q.flatMap HuffmanNode.leaves) := by
  match q, hq, hp, h1 with
  | [t], _, hp, _ => exact ⟨t, rfl, hp t (by simp), by simp⟩
  | _ :: _ :: _, _, _, h1 => simp at h1

theorem buildTree_spec (L : StdLib) (fuel : Nat) (q : List HuffmanNode) (hq : q ≠ [])
    (hp : ∀ t ∈ q, t.Proper) (hf : q.length ≤ fuel + 1) :
    ∃ root, buildTree L fuel q = [root] ∧ root.Proper ∧
      root.leaves.Perm (q.flatMap HuffmanNode.leaves) := by
  induction fuel generalizing q with
  | zero =>
    obtain ⟨root, e, h1, h2⟩ := queue_single q hq hp (by omega)
    exact ⟨root, by rw [buildTree, e], h1, h2⟩
  | succ n ih =>
    by_cases hlen : q.length > 1
    · obtain ⟨m1, m2, hperm⟩ := merge_perm L hlen
      have p1 : (pqTop L q).Proper := hp _ m1
      have p2 : (pqTop L (pqPop L q)).Proper := hp _ (List.mem_of_mem_erase m2)
      rw [buildTree, if_pos hlen]
      simp only []
      have hlen' := hperm.length_eq
      simp only [List.length_cons] at hlen'
      have hne' : pqPush (pqPop L (pqPop L q))
          (HuffmanNode.node 0 (((pqTop L q).freq + (pqTop L (pqPop L q)).freq) % 2 ^ 32)
            (pqTop L q) (pqTop L (pqPop L q))) ≠ [] := by simp [pqPush]
      obtain ⟨root, e, h1, h2⟩ := ih _ hne' (by
          intro t ht
          simp only [pqPush, List.mem_append, List.mem_singleton] at ht
          rcases ht with ht | rfl
          · exact hp t (List.mem_of_mem_erase (List.mem_of_mem_erase ht))
          · exact HuffmanNode.Proper.inner _ _ _ _ p1 p2)
        (by simp [pqPush]; omega)
      refine ⟨root, e, h1, h2.trans ?_⟩
      simp only [pqPush, List.flatMap_append, List.flatMap_cons, List.flatMap_nil,
        List.append_nil, leaves_node_of_ne_null _ _ p1.ne_null]
      refine List.Perm.trans ?_ (List.Perm.flatMap_right _ hperm.symm)
      simp only [List.flatMap_cons]
      exact List.perm_append_comm.trans (by rw [List.append_assoc])
    · obtain ⟨root, e, h1, h2⟩ := queue_single q hq hp (by omega)
      exact ⟨root, by rw [buildTree, if_neg hlen, e], h1, h2⟩

/-! ## The tree and the code table of `huffman_encode` -/

theorem foldl_push_eq {α : Type} (f : α → HuffmanNode) (l : List α) (acc : List HuffmanNode) :
    l.foldl (fun q p => pqPush q (f p)) acc = acc ++ l.map f := by
  induction l generalizing acc with
  | nil => simp
  | cons a t ih => rw [List.foldl_cons, ih]; simp [pqPush]

theorem initQueue_eq (L : StdLib) (freq : List (Nat × Nat)) :
    initQueue L freq = (L.freqOrder freq).map (fun p => HuffmanNode.leaf p.1 p.2) := by
  unfold initQueue
  rw [foldl_push_eq (fun p : Nat × Nat => HuffmanNode.leaf p.1 p.2)]
  simp

theorem flatMap_leaves_map_leaf (l : List (Nat × Nat)) :
    (l.map (fun p => HuffmanNode.leaf p.1 p.2)).flatMap HuffmanNode.leaves = l := by
  induction l with
  | nil => rfl
  | cons a t ih =>
    simp only [List.map_cons, List.flatMap_cons, ih]
    simp [HuffmanNode.leaf, HuffmanNode.leaves]

theorem countFreq_ne_nil {b : List Nat} (hb : b ≠ []) : countFreq b ≠ [] := by
  obtain ⟨x, hx⟩ := List.exists_mem_of_ne_nil b hb
  have := (mem_countFreq_keys b x).2 hx
  intro e
  rw [e] at this
  simp at this

/-- When the merge loop ends the queue holds one tree, whose leaves are the entries of the
frequency table. -/
theorem finalQueue_spec (L : StdLib) (b : List Nat) (hb : b ≠ []) :
    ∃ root, finalQueue L b = [root] ∧ root.Proper ∧ root.leaves.Perm (countFreq b) := by
  have hne : initQueue L (countFreq b) ≠ [] := by
    rw [initQueue_eq]
    intro e
    have h := (L.freqOrder_perm (countFreq b)).length_eq
    have h' := congrArg List.length e
    simp at h'
    rw [h'] at h
    exact countFreq_ne_nil hb (List.length_eq_zero.1 h.symm)
  have hp : ∀ t ∈ initQueue L (countFreq b), t.Proper := by
    rw [initQueue_eq]
    intro t ht
    obtain ⟨p, _, rfl⟩ := List.mem_map.1 ht
    exact HuffmanNode.Proper.leaf _ _
  obtain ⟨root, e, h1, h2⟩ := buildTree_spec L _ _ hne hp (Nat.le_succ _)
  refine ⟨root, e, h1, h2.trans ?_⟩
  rw [initQueue_eq, flatMap_leaves_map_leaf]
  exact L.freqOrder_perm _

theorem codeTable_spec (L : StdLib) (b : List Nat) (hb : b ≠ []) :
    ∃ root, finalQueue L b = [root] ∧ root.Proper ∧ root.leaves.Perm (countFreq b) ∧
      codeTable L b = root.codes [] := by
  obtain ⟨root, e, h1, h2⟩ := finalQueue_spec L b hb
  refine ⟨root, e, h1, h2, ?_⟩
  unfold codeTable
  rw [e, pqTop_singleton, buildCodeMap_eq, List.nil_append]
  rw [List.nil_append, codes_keys]
  exact ((h2.map Prod.fst).nodup_iff).2 (countFreq_keys_nodup b)

theorem codeTable_keys_nodup (L : StdLib) (b : List Nat) (hb : b ≠ []) :
    ((codeTable L b).map Prod.fst).Nodup := by
  obtain ⟨root, _, _, h2, e⟩ := codeTable_spec L b hb
  rw [e, codes_keys]
  exact ((h2.map Prod.fst).nodup_iff).2 (countFreq_keys_nodup b)

theorem mem_codeTable_keys (L : StdLib) (b : List Nat) (hb : b ≠ []) (x : Nat) :
    x ∈ (codeTable L b).map Prod.fst ↔ x ∈ b := by
  obtain ⟨root, _, _, h2, e⟩ := codeTable_spec L b hb
  rw [e, codes_keys, (h2.map Prod.fst).mem_iff, mem_countFreq_keys]

/-- C4. Prefix-free: in the code table `huffman_encode` builds for a non-empty buffer, the
codes of two distinct byte values differ and neither is a prefix of the other. -/
theorem codeTable_prefix_free (L : StdLib) (bufin : List Nat) (hne : bufin ≠ [])
    (a b : Nat) (ca cb : List Nat) (ha : (a, ca) ∈ codeTable L bufin)
    (hb : (b, cb) ∈ codeTable L bufin) (hab : a ≠ b) :
    ¬ ca <+: cb ∧ ¬ cb <+: ca ∧ ca ≠ cb := by
  obtain ⟨root, _, _, _, e⟩ := codeTable_spec L bufin hne
  rw [e] at ha hb
  have hsym : Symmetric (fun p q : Nat × List Nat => Incomparable p.2 q.2) :=
    fun p q h => ⟨h.2, h.1⟩
  have hpq : (a, ca) ≠ (b, cb) := fun h => hab (congrArg Prod.fst h)
  have h := (codes_pairwise root []).forall hsym ha hb hpq
  exact ⟨h.1, h.2, fun e => h.1 (e ▸ List.prefix_refl _)⟩

theorem codeTable_prefix_free_witness :
    (97, [48]) ∈ codeTable StdLib.simple [97, 97, 97, 98, 98, 99] ∧
      (98, [49, 49]) ∈ codeTable StdLib.simple [97, 97, 97, 98, 98, 99] ∧
      (¬ [48] <+: [49, 49] ∧ ¬ [49, 49] <+: [48] ∧ [48] ≠ [49, 49]) :=
  ⟨by decide, by decide,
    codeTable_prefix_free StdLib.simple [97, 97, 97, 98, 98, 99] (by decide) 97 98 [48] [49, 49]
      (by decide) (by decide) (by decide)⟩

/-! ## Stores into the output block -/

theorem put_bufOf (cap : Nat) (w : List Nat) (v : Nat) :
    (bufOf cap w).put v =
      if w.length < cap ∧ w.length + 1 < 2 ^ 31 then some (bufOf cap (w ++ [v % 256]))
      else none := by
  unfold OutBuf.put bufOf
  simp only [List.length_append, List.length_replicate, List.length_singleton]
  by_cases h : w.length < cap ∧ w.length + 1 < 2 ^ 31
  · have h' : w.length < w.length + (cap - w.length) ∧ w.length + 1 < 2 ^ 31 :=
      ⟨by omega, h.2⟩
    rw [if_pos h, if_pos h']
    have hk : cap - w.length = (cap - (w.length + 1)) + 1 := by omega
    rw [hk, List.replicate_succ, List.set_append_right _ _ (le_refl _)]
    simp
  · have h' : ¬ (w.length < w.length + (cap - w.length) ∧ w.length + 1 < 2 ^ 31) := by
      intro hh; apply h; exact ⟨by omega, hh.2⟩
    rw [if_neg h, if_neg h']

theorem foldlM_put_bufOf (cap : Nat) (vs w : List Nat) (hc : w.length ≤ cap)
    (hw : w.length < 2 ^ 31) :
    vs.foldlM OutBuf.put (bufOf cap w) =
      if w.length + vs.length ≤ cap ∧ w.length + vs.length < 2 ^ 31 then
        some (bufOf cap (w ++ vs.map (· % 256)))
      else none := by
  induction vs generalizing w with
  | nil =>
    rw [if_pos ⟨by simpa using hc, by simpa using hw⟩]
    simp
  | cons v t ih =>
    rw [List.foldlM_cons, put_bufOf]
    by_cases h : w.length < cap ∧ w.length + 1 < 2 ^ 31
    · rw [if_pos h]
      have e : (some (bufOf cap (w ++ [v % 256])) >>= fun o => List.foldlM OutBuf.put o t) =
          List.foldlM OutBuf.put (bufOf cap (w ++ [v % 256])) t := rfl
      rw [e, ih (w ++ [v % 256]) (by simp; omega) (by simp; omega)]
      simp only [List.length_append, List.length_singleton, List.length_cons, List.map_cons,
        List.append_assoc, List.singleton_append, List.length_nil, Nat.zero_add]
      have : (w.length + 1 + t.length ≤ cap ∧ w.length + 1 + t.length < 2 ^ 31) ↔
          (w.length + (t.length + 1) ≤ cap ∧ w.length + (t.length + 1) < 2 ^ 31) := by
        constructor <;> (intro hh; constructor <;> omega)
      by_cases hh : w.length + 1 + t.length ≤ cap ∧ w.length + 1 + t.length < 2 ^ 31
      · rw [if_pos hh, if_pos (this.1 hh)]
      · rw [if_neg hh, if_neg (fun h2 => hh (this.2 h2))]
    · rw [if_neg h, if_neg]
      · rfl
      · intro hh
        apply h
        simp only [List.length_cons] at hh
        constructor <;> omega

theorem writeRecord_eq (o : OutBuf) (p : Nat × List Nat) :
    writeRecord o p = (recordBytes p).foldlM OutBuf.put o := by
  simp only [writeRecord, recordBytes, List.foldlM_cons]
  rfl

theorem writeHeader_eq (m : HuffmanCodeMap) (o : OutBuf) :
    writeHeader o m = (headerBytes m).foldlM OutBuf.put o := by
  unfold writeHeader headerBytes
  induction m generalizing o with
  | nil => rfl
  | cons p t ih =>
    rw [List.foldlM_cons, List.flatMap_cons, List.foldlM_append, writeRecord_eq]
    congr 1
    funext o'
    exact ih o'

theorem writeBody_eq (fuel i : Nat) (s : List Nat) (o : OutBuf) :
    writeBody fuel i s o = (bodyBytes fuel i s).foldlM OutBuf.put o := by
  induction fuel generalizing i o with
  | zero => rfl
  | succ n ih =>
    simp only [writeBody, bodyBytes]
    split
    · rw [List.foldlM_cons]
      congr 1
      funext o'
      exact ih _ o'
    · rfl

theorem bodyBytes_eq_range' (fuel j n : Nat) (s : List Nat) (hs : s.length = 8 * n)
    (hf : n ≤ j + fuel) :
    bodyBytes fuel (8 * j) s =
      (List.range' j (n - j)).map fun k => bitsetOfString ((s.drop (8 * k)).take 8) := by
  induction fuel generalizing j with
  | zero =>
    have : n - j = 0 := by omega
    simp [bodyBytes, this]
  | succ f ih =>
    simp only [bodyBytes]
    by_cases h : 8 * j < s.length
    · rw [if_pos h]
      have hj : n - j = (n - (j + 1)) + 1 := by omega
      rw [hj, List.range'_succ, List.map_cons]
      have := ih (j + 1) (by omega)
      rw [Nat.mul_add, Nat.mul_one] at this
      rw [this]
    · rw [if_neg h]
      have : n - j = 0 := by omega
      simp [this]

theorem bodyBytes_eq_packedBody (s : List Nat) (h8 : s.length % 8 = 0) :
    bodyBytes s.length 0 s = packedBody s := by
  have hs : s.length = 8 * (s.length / 8) := by omega
  have := bodyBytes_eq_range' s.length 0 (s.length / 8) s hs (by omega)
  rw [Nat.mul_zero] at this
  rw [this, packedBody, Nat.sub_zero, List.range_eq_range']

theorem padBits_length_mod (s : List Nat) : (padBits s).length % 8 = 0 := by
  simp only [padBits, List.length_append, List.length_replicate]
  omega

theorem encodedStr_length_mod (L : StdLib) (b : List Nat) : (encodedStr L b).length % 8 = 0 :=
  padBits_length_mod _

theorem encodeWrites_eq (L : StdLib) (b : List Nat) :
    encodeWrites L b =
      if (frameLayout L b).length ≤ encodeCapacity L b ∧ (frameLayout L b).length < 2 ^ 31 then
        some (bufOf (encodeCapacity L b) ((frameLayout L b).map (· % 256)))
      else none := by
  have e : encodeWrites L b =
      (frameLayout L b).foldlM OutBuf.put (bufOf (encodeCapacity L b) []) := by
    unfold encodeWrites frameLayout
    rw [List.foldlM_append, List.foldlM_append, writeHeader_eq]
    simp only [writeBody_eq, bodyBytes_eq_packedBody _ (encodedStr_length_mod L b)]
    simp [bufOf]
  rw [e, foldlM_put_bufOf _ _ _ (by simp) (by simp)]
  simp

/-! ## Every byte of the frame fits a byte -/

theorem codes_chars (t : HuffmanNode) (str : List Nat) (hs : ∀ c ∈ str, c = 48 ∨ c = 49) :
    ∀ p ∈ t.codes str, ∀ c ∈ p.2, c = 48 ∨ c = 49 := by
  induction t generalizing str with
  | null => simp [HuffmanNode.codes]
  | node d f l r ihl ihr =>
    have ext : ∀ x, x = 48 ∨ x = 49 → ∀ c ∈ str ++ [x], c = 48 ∨ c = 49 := by
      intro x hx c hc
      rcases List.mem_append.1 hc with h | h
      · exact hs c h
      · simp at h; subst h; exact hx
    intro p hp
    simp only [HuffmanNode.codes, List.mem_append] at hp
    rcases hp with hp | hp | hp
    · split at hp
      · simp at hp; subst hp; exact hs
      · simp at hp
    · exact ihl _ (ext 48 (Or.inl rfl)) p hp
    · exact ihr _ (ext 49 (Or.inr rfl)) p hp

theorem nodup_lt_length_le (l : List Nat) (n : Nat) (hn : l.Nodup) (hl : ∀ x ∈ l, x < n) :
    l.length ≤ n := by
  have hsub : l ⊆ List.range n := fun x hx => List.mem_range.2 (hl x hx)
  have := (List.subperm_of_subset hn hsub).length_le
  simpa using this

theorem countFreq_length_le (b : List Nat) (hb : ∀ x ∈ b, x < 256) :
    (countFreq b).length ≤ 256 := by
  have := nodup_lt_length_le _ 256 (countFreq_keys_nodup b)
    (fun x hx => hb x ((mem_countFreq_keys b x).1 hx))
  simpa using this

theorem codeTable_entry (L : StdLib) (b : List Nat) (hne : b ≠ []) (hb : ∀ x ∈ b, x < 256) :
    ∀ p ∈ codeTable L b, p.1 < 256 ∧ p.2.length ≤ 255 ∧ ∀ c ∈ p.2, c = 48 ∨ c = 49 := by
  obtain ⟨root, _, hp, hperm, e⟩ := codeTable_spec L b hne
  intro p hmem
  have hkey : p.1 ∈ (codeTable L b).map Prod.fst := List.mem_map_of_mem _ hmem
  refine ⟨hb _ ((mem_codeTable_keys L b hne p.1).1 hkey), ?_, ?_⟩
  · rw [e] at hmem
    have h1 := codes_length_le hp [] p hmem
    have h2 := hperm.length_eq
    have h3 := countFreq_length_le b hb
    simp only [List.length_nil] at h1
    omega
  · rw [e] at hmem
    exact codes_chars root [] (by simp) p hmem

theorem foldl_bitset_lt (s : List Nat) (acc : Nat) :
    s.foldl (fun acc c => 2 * acc + (if c = 49 then 1 else 0)) acc < (acc + 1) * 2 ^ s.length := by
  induction s generalizing acc with
  | nil => simp
  | cons c t ih =>
    rw [List.foldl_cons, List.length_cons, pow_succ]
    have h := ih (2 * acc + (if c = 49 then 1 else 0))
    have hb : (2 * acc + (if c = 49 then 1 else 0) + 1) ≤ 2 * (acc + 1) := by
      split <;> omega
    calc _ < (2 * acc + (if c = 49 then 1 else 0) + 1) * 2 ^ t.length := h
      _ ≤ 2 * (acc + 1) * 2 ^ t.length := Nat.mul_le_mul_right _ hb
      _ = (acc + 1) * (2 ^ t.length * 2) := by ring

theorem bitsetOfString_lt (s : List Nat) (h : s.length ≤ 8) : bitsetOfString s < 256 := by
  have h1 := foldl_bitset_lt s 0
  have h2 : 2 ^ s.length ≤ 2 ^ 8 := Nat.pow_le_pow_right (by decide) h
  unfold bitsetOfString
  omega

theorem packedBody_lt (s : List Nat) : ∀ v ∈ packedBody s, v < 256 := by
  intro v hv
  obtain ⟨k, _, rfl⟩ := List.mem_map.1 hv
  exact bitsetOfString_lt _ (by simp [List.length_take])

theorem frameLayout_lt (L : StdLib) (b : List Nat) (hne : b ≠ []) (hb : ∀ x ∈ b, x < 256) :
    ∀ v ∈ frameLayout L b, v < 256 := by
  intro v hv
  simp only [frameLayout, List.mem_append, List.mem_singleton] at hv
  rcases hv with (hv | hv) | hv
  · simp only [headerBytes, List.mem_flatMap] at hv
    obtain ⟨p, hp, hv⟩ := hv
    have hp' : p ∈ codeTable L b := (L.codeOrder_perm _).mem_iff.1 hp
    obtain ⟨h1, h2, h3⟩ := codeTable_entry L b hne hb p hp'
    simp only [recordBytes, List.mem_cons] at hv
    rcases hv with rfl | rfl | hv
    · exact h1
    · omega
    · rcases h3 v hv with rfl | rfl <;> decide
  · subst hv; decide
  · exact packedBody_lt _ v hv

theorem map_mod_eq_self (l : List Nat) (h : ∀ v ∈ l, v < 256) : l.map (· % 256) = l := by
  induction l with
  | nil => rfl
  | cons a t ih =>
    rw [List.map_cons, ih (fun v hv => h v (List.mem_cons_of_mem _ hv)),
      Nat.mod_eq_of_lt (h a (by simp))]

/-- The outcome of `huffman_encode` on a buffer of bytes whose frame fits the block. -/
theorem encode_outcome_of_fits (L : StdLib) (bufin : List Nat) (hne : bufin ≠ [])
    (hbytes : ∀ x ∈ bufin, x < 256)
    (hcap : (frameLayout L bufin).length ≤ encodeCapacity L bufin)
    (hint : (frameLayout L bufin).length < 2 ^ 31) :
    huffman_encode L (some bufin) =
      .returned 0 (some ⟨frameLayout L bufin ++
        List.replicate (encodeCapacity L bufin - (frameLayout L bufin).length) 0,
        (frameLayout L bufin).length⟩) := by
  have hlen : bufin.length ≠ 0 := fun h => hne (List.length_eq_zero.1 h)
  have hmod : (frameLayout L bufin).length % 2 ^ 32 = (frameLayout L bufin).length :=
    Nat.mod_eq_of_lt (by omega)
  simp only [huffman_encode, if_neg hlen, encodeWrites_eq, if_pos (And.intro hcap hint),
    map_mod_eq_self _ (frameLayout_lt L bufin hne hbytes), bufOf, hmod]

/-- Frame layout while the stores stay inside the block: for a non-empty buffer of bytes
whose frame is no longer than the allocated capacity (and shorter than `2^31`),
`huffman_encode` returns 0, the reported length is the total length of records, sentinel and
packed bitstream, and the first `len` bytes of the block are exactly the records
`[byte value][code length][code characters]` in iteration order, one `0x00` sentinel, and
the packed bitstream. -/
theorem huffman_encode_frame_layout (L : StdLib) (bufin : List Nat) (hne : bufin ≠ [])
    (hbytes : ∀ x ∈ bufin, x < 256)
    (hcap : (frameLayout L bufin).length ≤ encodeCapacity L bufin)
    (hint : (frameLayout L bufin).length < 2 ^ 31) :
    huffman_encode L (some bufin) =
        .returned 0 (some ⟨frameLayout L bufin ++
          List.replicate (encodeCapacity L bufin - (frameLayout L bufin).length) 0,
          (frameLayout L bufin).length⟩) ∧
      (huffman_encode L (some bufin)).frame =
        some ((L.codeOrder (codeTable L bufin)).flatMap (fun p => p.1 :: p.2.length :: p.2)
          ++ [0] ++ packedBody (encodedStr L bufin)) := by
  have e := encode_outcome_of_fits L bufin hne hbytes hcap hint
  refine ⟨e, ?_⟩
  rw [e]
  simp only [Outcome.frame, List.take_left']
  rfl

/-! ## Invalid input -/

/-- C7. Invalid input: `huffman_encode` and `huffman_decode` return -1 without writing
either output when the buffer is absent or empty, and a call that returns 0 had a non-empty
buffer. -/
theorem invalid_input_status (L : StdLib) (bufin : Option (List Nat)) :
    ((bufin = none ∨ bufin = some []) →
        huffman_encode L bufin = .returned (-1) none ∧
          huffman_decode bufin = .returned (-1) none) ∧
      (∀ out, huffman_encode L bufin = .returned 0 out →
        ∃ b, bufin = some b ∧ b ≠ [] ∧ out ≠ none) ∧
      (∀ out, huffman_decode bufin = .returned 0 out →
        ∃ b, bufin = some b ∧ b ≠ [] ∧ out ≠ none) := by
  refine ⟨?_, ?_, ?_⟩
  · rintro (rfl | rfl) <;> exact ⟨rfl, rfl⟩
  · intro out h
    match bufin, h with
    | none, h => simp [huffman_encode] at h
    | some [], h => simp [huffman_encode] at h
    | some (x :: t), h =>
      refine ⟨x :: t, rfl, by simp, ?_⟩
      simp only [huffman_encode, List.length_cons, Nat.add_one_ne_zero, if_false] at h
      split at h
      · simp at h
      · simp at h; rw [← h]; simp
  · intro out h
    match bufin, h with
    | none, h => simp [huffman_decode] at h
    | some [], h => simp [huffman_decode] at h
    | some (x :: t), h =>
      refine ⟨x :: t, rfl, by simp, ?_⟩
      simp only [huffman_decode, List.length_cons, Nat.add_one_ne_zero, if_false] at h
      split at h
      · simp at h
      · simp at h; rw [← h]; simp

theorem invalid_input_status_witness :
    huffman_encode StdLib.simple (some []) = .returned (-1) none ∧
      huffman_decode (some []) = .returned (-1) none :=
  (invalid_input_status StdLib.simple (some [])).1 (Or.inr rfl)

/-! ## Buffers holding one byte value -/

theorem foldl_freqIncr_replicate (n v c : Nat) :
    ∃ c', (List.replicate n v).foldl freqIncr [(v, c)] = [(v, c')] := by
  induction n generalizing c with
  | zero => exact ⟨c, rfl⟩
  | succ k ih =>
    rw [List.replicate_succ, List.foldl_cons]
    simp only [freqIncr, if_true]
    exact ih _

theorem countFreq_replicate (n v : Nat) (hn : 1 ≤ n) :
    ∃ c, countFreq (List.replicate n v) = [(v, c)] := by
  obtain ⟨k, rfl⟩ : ∃ k, n = k + 1 := ⟨n - 1, by omega⟩
  unfold countFreq
  rw [List.replicate_succ, List.foldl_cons]
  exact foldl_freqIncr_replicate k v 1

theorem proper_single_leaf {t : HuffmanNode} (h : t.Proper) (d f : Nat)
    (hl : t.leaves = [(d, f)]) : t = .node d f .null .null := by
  cases h with
  | leaf d' f' =>
    simp [HuffmanNode.leaves] at hl
    rw [hl.1, hl.2]
  | inner d' f' l r pl pr =>
    have h1 := pl.leaves_pos
    have h2 := pr.leaves_pos
    have := congrArg List.length hl
    rw [leaves_node_of_ne_null _ _ pl.ne_null] at this
    simp at this
    omega

theorem codeTable_replicate (L : StdLib) (n v : Nat) (hn : 1 ≤ n) :
    codeTable L (List.replicate n v) = [(v, [])] := by
  have hne : List.replicate n v ≠ [] := by
    intro e
    have := congrArg List.length e
    simp at this
    omega
  obtain ⟨root, _, hp, hperm, e⟩ := codeTable_spec L _ hne
  obtain ⟨c, hc⟩ := countFreq_replicate n v hn
  rw [hc] at hperm
  have hl := List.perm_singleton.1 hperm
  rw [e, proper_single_leaf hp v c hl]
  simp [HuffmanNode.codes]

theorem encodeBits_replicate (n v : Nat) (acc : List Nat) :
    (List.replicate n v).foldl (fun s x => s ++ codeOf [(v, [])] x) acc = acc := by
  induction n generalizing acc with
  | zero => rfl
  | succ k ih =>
    rw [List.replicate_succ, List.foldl_cons]
    have : codeOf [(v, [])] v = [] := by simp [codeOf]
    rw [this, List.append_nil]
    exact ih acc

theorem encodedStr_replicate (L : StdLib) (n v : Nat) (hn : 1 ≤ n) :
    encodedStr L (List.replicate n v) = List.replicate 8 48 := by
  unfold encodedStr encodeBits
  rw [codeTable_replicate L n v hn, encodeBits_replicate]
  rfl

theorem frameLayout_replicate (L : StdLib) (n v : Nat) (hn : 1 ≤ n) :
    frameLayout L (List.replicate n v) = [v, 0, 0, 0] ∧
      encodeCapacity L (List.replicate n v) = 257 := by
  unfold frameLayout encodeCapacity
  rw [encodedStr_replicate L n v hn, codeTable_replicate L n v hn,
    List.perm_singleton.1 (L.codeOrder_perm [(v, [])])]
  exact ⟨rfl, rfl⟩

/-- The frame of a buffer of `n ≥ 1` copies of one byte: a record with code length 0, the
sentinel and one zero body byte. -/
theorem huffman_encode_replicate (L : StdLib) (n v : Nat) (hn : 1 ≤ n) (hv : v < 256) :
    (huffman_encode L (some (List.replicate n v))).frame = some [v, 0, 0, 0] := by
  have hne : List.replicate n v ≠ [] := by
    intro e
    have := congrArg List.length e
    simp at this
    omega
  obtain ⟨h1, h2⟩ := frameLayout_replicate L n v hn
  have hb : ∀ x ∈ List.replicate n v, x < 256 := by
    intro x hx
    rw [(List.mem_replicate.1 hx).2]; exact hv
  have h := (encode_outcome_of_fits L _ hne hb (by rw [h1, h2]; simp)
    (by rw [h1]; simp))
  rw [h, h1]
  simp [Outcome.frame]

theorem huffman_decode_single (v : Nat) :
    huffman_decode (some [v, 0, 0, 0]) = .returned 0 (some ⟨[0], 0⟩) := by
  by_cases hv : v = 0
  · subst hv; decide
  · simp [huffman_decode, parseHeader, readCode, hv, mapSet, unpackBits, bitsetToString,
      decodeBits, decodeStep, List.lookup]

/-- C2. A buffer of `n ≥ 1` copies of one byte value does not survive the round trip:
decoding its frame succeeds with an empty output (length 0), whatever `n` and `v` are. -/
theorem single_value_roundtrip (L : StdLib) (n v : Nat) (hn : 1 ≤ n) (hv : v < 256) :
    ((huffman_encode L (some (List.replicate n v))).frame).isSome ∧
      huffman_decode (huffman_encode L (some (List.replicate n v))).frame =
        .returned 0 (some ⟨[0], 0⟩) := by
  rw [huffman_encode_replicate L n v hn hv]
  exact ⟨rfl, huffman_decode_single v⟩

theorem single_value_roundtrip_witness :
    huffman_decode (huffman_encode StdLib.simple (some [0x41, 0x41, 0x41])).frame =
        .returned 0 (some ⟨[0], 0⟩) :=
  (single_value_roundtrip StdLib.simple 3 0x41 (by decide) (by decide)).2

/-- C3. The code table of a buffer of `n ≥ 1` copies of one byte value holds one entry,
whose code is the empty string (length 0). -/
theorem single_value_code_empty (L : StdLib) (n v : Nat) (hn : 1 ≤ n) :
    codeTable L (List.replicate n v) = [(v, [])] ∧
      ∃ p ∈ codeTable L (List.replicate n v), p.2.length = 0 := by
  rw [codeTable_replicate L n v hn]
  exact ⟨rfl, (v, []), by simp, rfl⟩

theorem single_value_code_empty_witness :
    codeTable StdLib.simple [0x41, 0x41, 0x41] = [(0x41, [])] :=
  (single_value_code_empty StdLib.simple 3 0x41 (by decide)).1

/-! ## A buffer of two distinct bytes -/

theorem perm_pair {α : Type} [DecidableEq α] {l : List α} {x y : α} (h : l.Perm [x, y]) :
    l = [x, y] ∨ l = [y, x] := by
  match l, h with
  | [], h => simpa using h.length_eq
  | [a], h => simpa using h.length_eq
  | _ :: _ :: _ :: _, h => simpa using h.length_eq
  | [a, b], h =>
    obtain ⟨ha, hb⟩ := List.cons_perm_iff_perm_erase.1 h
    by_cases hax : a = x
    · subst hax
      rw [List.erase_cons_head] at hb
      rw [List.perm_singleton.1 hb.symm]
      exact Or.inl rfl
    · have hay : a = y := by simpa [hax] using ha
      subst hay
      have : [x, a].erase a = [x] := by
        rw [List.erase_cons_tail (by simpa using Ne.symm hax), List.erase_cons_head]
      rw [this] at hb
      rw [List.perm_singleton.1 hb.symm]
      exact Or.inr rfl

theorem proper_one_leaf {t : HuffmanNode} (h : t.Proper) (hl : t.leaves.length = 1) :
    ∃ d f, t = .node d f .null .null ∧ t.leaves = [(d, f)] := by
  match hleaves : t.leaves, hl with
  | [(d, f)], _ =>
    have := proper_single_leaf h d f hleaves
    exact ⟨d, f, this, rfl⟩

theorem proper_two_leaves {t : HuffmanNode} (h : t.Proper) (hl : t.leaves.length = 2) :
    ∃ d f a fa b fb, t = .node d f (.node a fa .null .null) (.node b fb .null .null) ∧
      t.leaves = [(a, fa), (b, fb)] := by
  cases h with
  | leaf d f => simp [HuffmanNode.leaves] at hl
  | inner d f l r pl pr =>
    rw [leaves_node_of_ne_null _ _ pl.ne_null, List.length_append] at hl
    have h1 := pl.leaves_pos
    have h2 := pr.leaves_pos
    obtain ⟨a, fa, rfl, ea⟩ := proper_one_leaf pl (by omega)
    obtain ⟨b, fb, rfl, eb⟩ := proper_one_leaf pr (by omega)
    exact ⟨d, f, a, fa, b, fb, rfl, by simp [HuffmanNode.leaves]⟩

theorem codeTable_two (L : StdLib) (x y : Nat) (hxy : x ≠ y) :
    codeTable L [x, y] = [(x, [48]), (y, [49])] ∨
      codeTable L [x, y] = [(y, [48]), (x, [49])] := by
  obtain ⟨root, _, hp, hperm, e⟩ := codeTable_spec L [x, y] (by simp)
  have hc : countFreq [x, y] = [(x, 1), (y, 1)] := by
    simp [countFreq, freqIncr, hxy]
  rw [hc] at hperm
  obtain ⟨d, f, a, fa, b, fb, rfl, hl⟩ := proper_two_leaves hp (by simpa using hperm.length_eq)
  rw [hl] at hperm
  rw [e]
  rcases perm_pair hperm with h | h
  · simp only [List.cons.injEq, Prod.mk.injEq, and_true] at h
    obtain ⟨⟨rfl, rfl⟩, rfl, rfl⟩ := h
    left; simp [HuffmanNode.codes]
  · simp only [List.cons.injEq, Prod.mk.injEq, and_true] at h
    obtain ⟨⟨rfl, rfl⟩, rfl, rfl⟩ := h
    right; simp [HuffmanNode.codes]

/-- The two frames `huffman_encode` can produce for the buffer `"ab"` once its code table is
known, one per iteration order of the table. -/
theorem frame_two (L : StdLib) (b : List Nat) (p q : Nat × List Nat) (hne : b ≠ [])
    (hb : ∀ x ∈ b, x < 256) (hct : codeTable L b = [p, q])
    (hfit : (recordBytes p ++ recordBytes q).length + 1 +
      (packedBody (padBits (encodeBits [p, q] b))).length ≤
        ((padBits (encodeBits [p, q] b)).length / 8 + 256) % 2 ^ 32)
    (hint : (recordBytes p ++ recordBytes q).length + 1 +
      (packedBody (padBits (encodeBits [p, q] b))).length < 2 ^ 31) :
    (huffman_encode L (some b)).frame =
        some (recordBytes p ++ recordBytes q ++ [0] ++
          packedBody (padBits (encodeBits [p, q] b))) ∨
      (huffman_encode L (some b)).frame =
        some (recordBytes q ++ recordBytes p ++ [0] ++
          packedBody (padBits (encodeBits [p, q] b))) := by
  have hcap : encodeCapacity L b = ((padBits (encodeBits [p, q] b)).length / 8 + 256) % 2 ^ 32 := by
    simp [encodeCapacity, encodedStr, hct]
  have hperm := L.codeOrder_perm (codeTable L b)
  rw [hct] at hperm
  rcases perm_pair hperm with h | h
  · have hl : frameLayout L b = recordBytes p ++ recordBytes q ++ [0] ++
        packedBody (padBits (encodeBits [p, q] b)) := by
      simp [frameLayout, encodedStr, hct, h, headerBytes]
    left
    rw [encode_outcome_of_fits L b hne hb
      (by rw [hl, hcap]; simp only [List.length_append, List.length_singleton] at hfit ⊢; omega)
      (by rw [hl]; simp only [List.length_append, List.length_singleton] at hint ⊢; omega)]
    simp only [Outcome.frame, List.take_left', hl]
  · have hl : frameLayout L b = recordBytes q ++ recordBytes p ++ [0] ++
        packedBody (padBits (encodeBits [p, q] b)) := by
      simp [frameLayout, encodedStr, hct, h, headerBytes]
    right
    rw [encode_outcome_of_fits L b hne hb
      (by rw [hl, hcap]; simp only [List.length_append, List.length_singleton] at hfit ⊢; omega)
      (by rw [hl]; simp only [List.length_append, List.length_singleton] at hint ⊢; omega)]
    simp only [Outcome.frame, List.take_left', hl]

/-- C1. The round trip fails on the two-byte buffer `"ab"` under every iteration order and
tie-break: decoding the frame succeeds and yields 8 bytes, the two input bytes followed by
six more decoded from the padding. -/
theorem roundtrip_two_bytes (L : StdLib) :
    huffman_decode (huffman_encode L (some [0x61, 0x62])).frame =
        .returned 0 (some ⟨[0x61, 0x62, 0x61, 0x61, 0x61, 0x61, 0x61, 0x61, 0], 8⟩) ∨
      huffman_decode (huffman_encode L (some [0x61, 0x62])).frame =
        .returned 0 (some ⟨[0x61, 0x62, 0x62, 0x62, 0x62, 0x62, 0x62, 0x62, 0], 8⟩) := by
  rcases codeTable_two L 0x61 0x62 (by decide) with h | h
  · rcases frame_two L [0x61, 0x62] _ _ (by simp) (by decide) h (by decide) (by decide)
      with e | e
    · left; rw [e]; decide
    · left; rw [e]; decide
  · rcases frame_two L [0x61, 0x62] _ _ (by simp) (by decide) h (by decide) (by decide)
      with e | e
    · right; rw [e]; decide
    · right; rw [e]; decide

/-! ## Capacity of the output block -/

theorem headerBytes_length_ge (m : HuffmanCodeMap) : 2 * m.length ≤ (headerBytes m).length := by
  induction m with
  | nil => simp [headerBytes]
  | cons p t ih =>
    simp only [headerBytes, List.flatMap_cons, List.length_append, List.length_cons,
      recordBytes] at ih ⊢
    omega

theorem packedBody_length (s : List Nat) : (packedBody s).length = s.length / 8 := by
  simp [packedBody]

theorem codeTable_length (L : StdLib) (b : List Nat) (hne : b ≠ []) :
    (codeTable L b).length = (countFreq b).length := by
  obtain ⟨root, _, _, hperm, e⟩ := codeTable_spec L b hne
  have h := congrArg List.length (codes_keys root [])
  simp only [List.length_map] at h
  rw [e, h, hperm.length_eq]

/-- A buffer with at least 128 distinct byte values needs more than the 256 bytes the
capacity leaves for header and sentinel: the stores of `huffman_encode` leave the block. -/
theorem encode_overflow_of_many (L : StdLib) (b : List Nat) (h : 128 ≤ (countFreq b).length) :
    encodeCapacity L b < (frameLayout L b).length ∧ huffman_encode L (some b) = .undefined := by
  have hne : b ≠ [] := by
    intro e; subst e; simp [countFreq] at h
  have hlen : b.length ≠ 0 := fun e => hne (List.length_eq_zero.1 e)
  have h1 := headerBytes_length_ge (L.codeOrder (codeTable L b))
  rw [(L.codeOrder_perm _).length_eq, codeTable_length L b hne] at h1
  have h2 : (frameLayout L b).length =
      (headerBytes (L.codeOrder (codeTable L b))).length + 1 + (encodedStr L b).length / 8 := by
    simp only [frameLayout, List.length_append, List.length_singleton, packedBody_length]
  have h3 : encodeCapacity L b ≤ (encodedStr L b).length / 8 + 256 := Nat.mod_le _ _
  have hlt : encodeCapacity L b < (frameLayout L b).length := by omega
  refine ⟨hlt, ?_⟩
  simp only [huffman_encode, if_neg hlen, encodeWrites_eq]
  rw [if_neg (fun hh => absurd hh.1 (by omega))]

/-- C8. Output capacity is exceeded: for every buffer with at least 128 distinct byte
values the frame (records, sentinel, packed body) is longer than the allocated capacity
`encodedStr.size() / 8 + 256`, so a store of `huffman_encode` lands outside the block. -/
theorem huffman_encode_exceeds_capacity (L : StdLib) (bufin : List Nat)
    (h : 128 ≤ (countFreq bufin).length) :
    encodeCapacity L bufin < (frameLayout L bufin).length ∧
      encodeWrites L bufin = none ∧ huffman_encode L (some bufin) = .undefined := by
  obtain ⟨h1, h2⟩ := encode_overflow_of_many L bufin h
  refine ⟨h1, ?_, h2⟩
  rw [encodeWrites_eq, if_neg (fun hh => absurd hh.1 (by omega))]

set_option maxRecDepth 100000 in
theorem wideInput_distinct : 128 ≤ (countFreq wideInput).length := by decide

theorem huffman_encode_exceeds_capacity_witness :
    128 ≤ (countFreq wideInput).length ∧
      huffman_encode StdLib.simple (some wideInput) = .undefined :=
  ⟨wideInput_distinct,
    (huffman_encode_exceeds_capacity StdLib.simple wideInput wideInput_distinct).2.2⟩

set_option maxRecDepth 100000 in
/-- C9. Frame layout fails on the 128 distinct bytes of `wideInput`, a non-empty buffer:
the stores of header, sentinel and body leave the allocated block, so `huffman_encode`
returns no frame at all, under every iteration order and tie-break. -/
theorem frame_layout_fails_wideInput :
    wideInput ≠ [] ∧ (∀ x ∈ wideInput, x < 256) ∧
      ∀ L : StdLib, (huffman_encode L (some wideInput)).frame = none ∧
        (huffman_encode L (some wideInput)).frame ≠ some (frameLayout L wideInput) := by
  refine ⟨by decide, by decide, ?_⟩
  intro L
  rw [(encode_overflow_of_many L wideInput wideInput_distinct).2]
  exact ⟨rfl, by simp [Outcome.frame]⟩

theorem huffman_encode_frame_layout_witness :
    (huffman_encode StdLib.simple (some [0x61, 0x61, 0x61, 0x62, 0x62, 0x63])).frame =
      some ([0x61, 1, 48, 0x63, 2, 49, 48, 0x62, 2, 49, 49] ++ [0] ++ [31, 0]) :=
  (huffman_encode_frame_layout StdLib.simple [0x61, 0x61, 0x61, 0x62, 0x62, 0x63]
    (by decide) (by decide) (by decide) (by decide)).2

/-! ## The zero byte and the sentinel -/

/-- C10 fails on a buffer that holds the byte 0: the header `huffman_encode` emits has a
record whose byte value is 0, under every iteration order and tie-break. -/
theorem zero_byte_record (L : StdLib) (bufin : List Nat) (h0 : 0 ∈ bufin) :
    ∃ code, (0, code) ∈ L.codeOrder (codeTable L bufin) ∧
      ∃ pre post, headerBytes (L.codeOrder (codeTable L bufin)) =
        headerBytes pre ++ 0 :: code.length :: code ++ headerBytes post := by
  have hne : bufin ≠ [] := List.ne_nil_of_mem h0
  have hk := (mem_codeTable_keys L bufin hne 0).2 h0
  obtain ⟨p, hp, hp0⟩ := List.mem_map.1 hk
  obtain ⟨k, code⟩ := p
  simp only at hp0
  subst hp0
  have hmem : (0, code) ∈ L.codeOrder (codeTable L bufin) :=
    (L.codeOrder_perm _).mem_iff.2 hp
  refine ⟨code, hmem, ?_⟩
  obtain ⟨pre, post, e⟩ := List.append_of_mem hmem
  refine ⟨pre, post, ?_⟩
  rw [e]
  simp [headerBytes, recordBytes]

theorem zero_byte_record_witness :
    0 ∈ [0, 1] ∧ ∃ code, (0, code) ∈ StdLib.simple.codeOrder (codeTable StdLib.simple [0, 1]) :=
  ⟨by decide, (zero_byte_record StdLib.simple [0, 1] (by decide)).imp fun _ h => h.1⟩

/-- C5 fails on the buffer `[0, 1]`, which has two distinct byte values: under every
iteration order and tie-break `huffman_encode` returns a frame of 8 bytes with the sentinel
at index 6, and the header parse of `huffman_decode` stops at index 0 or 3, on the record of
byte 0, with at most one entry in the reverse table while the code table has two. -/
theorem header_parse_zero_byte (L : StdLib) :
    ∃ frame idx rc, (huffman_encode L (some [0, 1])).frame = some frame ∧
      frame.length = 8 ∧ frame.get? 6 = some 0 ∧
      parseHeader frame (frame.length + 1) 0 [] = some (idx, rc) ∧
      (idx = 0 ∨ idx = 3) ∧ rc.length ≤ 1 ∧ (codeTable L [0, 1]).length = 2 ∧
      ∀ code, (code, 0) ∉ rc := by
  rcases codeTable_two L 0 1 (by decide) with h | h
  · rcases frame_two L [0, 1] _ _ (by simp) (by decide) h (by decide) (by decide)
      with e | e
    · exact ⟨_, 0, [], e, by decide, by decide, by decide, by decide, by decide,
        by rw [h]; rfl, by simp⟩
    · exact ⟨_, 3, [([49], 1)], e, by decide, by decide, by decide, by decide, by decide,
        by rw [h]; rfl, by simp⟩
  · rcases frame_two L [0, 1] _ _ (by simp) (by decide) h (by decide) (by decide)
      with e | e
    · exact ⟨_, 3, [([48], 1)], e, by decide, by decide, by decide, by decide, by decide,
        by rw [h]; rfl, by simp⟩
    · exact ⟨_, 0, [], e, by decide, by decide, by decide, by decide, by decide,
        by rw [h]; rfl, by simp⟩

/-! ## A header without sentinel -/

set_option maxRecDepth 100000 in
/-- C6 fails: on the one-byte input `[0x41]`, and on the frame of `"ab"` cut before its
sentinel, the header parse of `huffman_decode` reads past the end of the buffer; no status
is returned. -/
theorem huffman_decode_reads_past_end :
    huffman_decode (some [0x41]) = .undefined ∧
      (huffman_encode StdLib.simple (some [0x61, 0x62])).frame =
        some ([0x61, 1, 48, 0x62, 1, 49] ++ [0, 64]) ∧
      huffman_decode (some [0x61, 1, 48, 0x62, 1, 49]) = .undefined := by
  decide

/-! ## Fuel of the header parse -/

theorem readCode_idx (bufin : List Nat) (n idx : Nat) (code code' : List Nat) (idx' : Nat)
    (h : readCode bufin n idx code = some (code', idx')) : idx' = idx + n := by
  induction n generalizing idx code with
  | zero =>
    simp only [readCode, Option.some.injEq, Prod.mk.injEq] at h
    omega
  | succ k ih =>
    simp only [readCode] at h
    split at h
    · exact absurd h (by simp)
    · have := ih _ _ h
      omega

/-- The fuel `bufin.length + 1` handed to the header parse is never used up: from any index,
fuel beyond the bytes left changes nothing, so `none` always stands for a read outside the
buffer. -/
theorem parseHeader_fuel (bufin : List Nat) (fuel idx : Nat) (rc : List (List Nat × Nat))
    (h : bufin.length < idx + fuel) :
    parseHeader bufin (fuel + 1) idx rc = parseHeader bufin fuel idx rc := by
  induction fuel generalizing idx rc with
  | zero =>
    have hnone : bufin.get? idx = none := List.get?_eq_none.2 (by omega)
    simp only [parseHeader, hnone]
  | succ k ih =>
    rw [parseHeader]
    conv_rhs => rw [parseHeader]
    cases h0 : bufin.get? idx with
    | none => rfl
    | some d =>
      simp only []
      by_cases hd : d = 0
      · simp [hd]
      · simp only [if_neg hd]
        cases h1 : bufin.get? (idx + 1) with
        | none => rfl
        | some len =>
          simp only []
          cases h2 : readCode bufin len (idx + 2) [] with
          | none => rfl
          | some r =>
            obtain ⟨code, idx'⟩ := r
            simp only []
            have := readCode_idx _ _ _ _ _ _ h2
            exact ih idx' _ (by omega)

/-! ## Padding and packing -/

theorem bodyBytes_length (s : List Nat) (h8 : s.length % 8 = 0) :
    (bodyBytes s.length 0 s).length = s.length / 8 := by
  rw [bodyBytes_eq_packedBody s h8, packedBody_length]

/-- C12. Padding: for a non-empty buffer whose concatenated codes have `n` characters,
`huffman_encode` appends `p = 8 - n % 8` characters `'0'`, with `1 ≤ p ≤ 8`; the padded
length `n + p` is a multiple of 8 and the packing loop stores exactly `n / 8 + 1` body
bytes. -/
theorem padding_length (L : StdLib) (bufin : List Nat) (hne : bufin ≠ []) :
    encodedStr L bufin = encodeBits (codeTable L bufin) bufin ++
        List.replicate (8 - (encodeBits (codeTable L bufin) bufin).length % 8) 48 ∧
      1 ≤ 8 - (encodeBits (codeTable L bufin) bufin).length % 8 ∧
      8 - (encodeBits (codeTable L bufin) bufin).length % 8 ≤ 8 ∧
      (encodedStr L bufin).length = (encodeBits (codeTable L bufin) bufin).length +
        (8 - (encodeBits (codeTable L bufin) bufin).length % 8) ∧
      (encodedStr L bufin).length % 8 = 0 ∧
      (bodyBytes (encodedStr L bufin).length 0 (encodedStr L bufin)).length =
        (encodeBits (codeTable L bufin) bufin).length / 8 + 1 ∧
      (packedBody (encodedStr L bufin)).length =
        (encodeBits (codeTable L bufin) bufin).length / 8 + 1 := by
  have _ := hne
  have hlen : (encodedStr L bufin).length = (encodeBits (codeTable L bufin) bufin).length +
      (8 - (encodeBits (codeTable L bufin) bufin).length % 8) := by
    simp [encodedStr, padBits]
  have hmod := encodedStr_length_mod L bufin
  refine ⟨rfl, by omega, by omega, hlen, hmod, ?_, ?_⟩
  · rw [bodyBytes_length _ hmod]; omega
  · rw [packedBody_length]; omega

theorem padding_length_witness :
    [0x61, 0x62] ≠ [] ∧
      (packedBody (encodedStr StdLib.simple [0x61, 0x62])).length =
        (encodeBits (codeTable StdLib.simple [0x61, 0x62]) [0x61, 0x62]).length / 8 + 1 :=
  ⟨by decide, (padding_length StdLib.simple [0x61, 0x62] (by decide)).2.2.2.2.2.2⟩

theorem bitsetToString_bitsetOfString (c : List Nat) (hl : c.length = 8)
    (hb : ∀ x ∈ c, x = 48 ∨ x = 49) : bitsetToString (bitsetOfString c) = c := by
  match c, hl with
  | [c0, c1, c2, c3, c4, c5, c6, c7], _ =>
    have h0 := hb c0 (by simp)
    have h1 := hb c1 (by simp)
    have h2 := hb c2 (by simp)
    have h3 := hb c3 (by simp)
    have h4 := hb c4 (by simp)
    have h5 := hb c5 (by simp)
    have h6 := hb c6 (by simp)
    have h7 := hb c7 (by simp)
    rcases h0 with rfl | rfl <;> rcases h1 with rfl | rfl <;> rcases h2 with rfl | rfl <;>
    rcases h3 with rfl | rfl <;> rcases h4 with rfl | rfl <;> rcases h5 with rfl | rfl <;>
    rcases h6 with rfl | rfl <;> rcases h7 with rfl | rfl <;> rfl

theorem foldl_append_bits (l : List Nat) (acc : List Nat) :
    l.foldl (fun s v => s ++ bitsetToString v) acc = acc ++ l.flatMap bitsetToString := by
  induction l generalizing acc with
  | nil => simp
  | cons a t ih => rw [List.foldl_cons, ih, List.flatMap_cons, List.append_assoc]

theorem packedBody_step (s : List Nat) (n : Nat) (hs : s.length = 8 * (n + 1)) :
    packedBody s = bitsetOfString (s.take 8) :: packedBody (s.drop 8) := by
  unfold packedBody
  have h1 : s.length / 8 = n + 1 := by omega
  have h2 : (s.drop 8).length / 8 = n := by simp; omega
  rw [h1, h2, List.range_succ_eq_map, List.map_cons, List.map_map]
  congr 1
  apply List.map_congr_left
  intro k _
  simp only [Function.comp, List.drop_drop]
  congr 3
  omega

theorem unpack_packedBody (n : Nat) (s : List Nat) (hs : s.length = 8 * n)
    (hb : ∀ x ∈ s, x = 48 ∨ x = 49) : (packedBody s).flatMap bitsetToString = s := by
  induction n generalizing s with
  | zero =>
    have : s = [] := List.length_eq_zero.1 (by omega)
    subst this; rfl
  | succ k ih =>
    rw [packedBody_step s k hs, List.flatMap_cons,
      ih (s.drop 8) (by simp; omega) (fun x hx => hb x (List.mem_of_mem_drop hx)),
      bitsetToString_bitsetOfString _ (by simp; omega)
        (fun x hx => hb x (List.mem_of_mem_take hx)),
      List.take_append_drop]

theorem unpackBits_append (pre body : List Nat) :
    unpackBits (pre ++ body) pre.length = body.flatMap bitsetToString := by
  unfold unpackBits
  rw [List.drop_left, foldl_append_bits, List.nil_append]
theorem encodeBits_eq_flatMap (m : HuffmanCodeMap) (b : List Nat) :
    encodeBits m b = b.flatMap (codeOf m) := by
  have h : ∀ acc : List Nat,
      b.foldl (fun s x => s ++ codeOf m x) acc = acc ++ b.flatMap (codeOf m) := by
    induction b with
    | nil => simp
    | cons a t ih =>
      intro acc
      rw [List.foldl_cons, ih, List.flatMap_cons, List.append_assoc]
  simpa [encodeBits] using h []

theorem codeOf_mem (m : HuffmanCodeMap) (x : Nat) :
    codeOf m x = [] ∨ (x, codeOf m x) ∈ m := by
  unfold codeOf
  induction m with
  | nil => left; rfl
  | cons p t ih =>
    obtain ⟨k, c⟩ := p
    by_cases hk : x = k
    · subst hk; right; simp [List.lookup]
    · have : (x == k) = false := by simpa using hk
      rw [List.lookup_cons, this]
      rcases ih with h | h
      · left; exact h
      · right; exact List.mem_cons_of_mem _ h

theorem encodedStr_chars (L : StdLib) (b : List Nat) (hne : b ≠ []) :
    ∀ x ∈ encodedStr L b, x = 48 ∨ x = 49 := by
  obtain ⟨root, _, _, _, e⟩ := codeTable_spec L b hne
  intro x hx
  simp only [encodedStr, padBits, List.mem_append, encodeBits_eq_flatMap,
    List.mem_flatMap] at hx
  rcases hx with ⟨y, _, hy⟩ | hx
  · rcases codeOf_mem (codeTable L b) y with h | h
    · rw [h] at hy; simp at hy
    · rw [e] at h
      exact codes_chars root [] (by simp) _ h x (by rw [← e]; exact hy)
  · left; exact (List.mem_replicate.1 hx).2

theorem bitsetOfString_eight (c0 c1 c2 c3 c4 c5 c6 c7 : Nat) :
    bitsetOfString [c0, c1, c2, c3, c4, c5, c6, c7] =
      bitValue c0 * 128 + bitValue c1 * 64 + bitValue c2 * 32 + bitValue c3 * 16 +
        bitValue c4 * 8 + bitValue c5 * 4 + bitValue c6 * 2 + bitValue c7 * 1 := by
  simp only [bitsetOfString, List.foldl_cons, List.foldl_nil, bitValue]
  omega

theorem take_eight_drop (s : List Nat) (i : Nat) (h : i + 8 ≤ s.length) :
    (s.drop i).take 8 =
      [s.getD i 48, s.getD (i + 1) 48, s.getD (i + 2) 48, s.getD (i + 3) 48,
        s.getD (i + 4) 48, s.getD (i + 5) 48, s.getD (i + 6) 48, s.getD (i + 7) 48] := by
  apply List.ext_getElem
  · simp; omega
  · intro n h1 h2
    simp only [List.length_cons, List.length_nil] at h2
    rw [List.getElem_take, List.getElem_drop]
    have hn : n = 0 ∨ n = 1 ∨ n = 2 ∨ n = 3 ∨ n = 4 ∨ n = 5 ∨ n = 6 ∨ n = 7 := by omega
    rcases hn with rfl | rfl | rfl | rfl | rfl | rfl | rfl | rfl <;>
      simp (disch := omega) [List.getElem?_eq_getElem]

/-- C14. Bit pack/unpack inverse: the `k`-th body byte `huffman_encode` stores is
`b0*128 + b1*64 + ... + b7*1` for the bits `b0..b7` of characters `8k .. 8k+7` of the padded
string (most significant first), and the expansion `huffman_decode` applies to the bytes
after any header of the same length gives back the padded string exactly. -/
theorem pack_unpack_inverse (L : StdLib) (bufin : List Nat) (hne : bufin ≠ []) :
    bodyBytes (encodedStr L bufin).length 0 (encodedStr L bufin) =
        (List.range ((encodedStr L bufin).length / 8)).map (fun k =>
          bitValue ((encodedStr L bufin).getD (8 * k) 48) * 128 +
          bitValue ((encodedStr L bufin).getD (8 * k + 1) 48) * 64 +
          bitValue ((encodedStr L bufin).getD (8 * k + 2) 48) * 32 +
          bitValue ((encodedStr L bufin).getD (8 * k + 3) 48) * 16 +
          bitValue ((encodedStr L bufin).getD (8 * k + 4) 48) * 8 +
          bitValue ((encodedStr L bufin).getD (8 * k + 5) 48) * 4 +
          bitValue ((encodedStr L bufin).getD (8 * k + 6) 48) * 2 +
          bitValue ((encodedStr L bufin).getD (8 * k + 7) 48) * 1) ∧
      ∀ header : List Nat,
        unpackBits (header ++ bodyBytes (encodedStr L bufin).length 0 (encodedStr L bufin))
          header.length = encodedStr L bufin := by
  have hmod := encodedStr_length_mod L bufin
  rw [bodyBytes_eq_packedBody _ hmod]
  constructor
  · unfold packedBody
    apply List.map_congr_left
    intro k hk
    have hk' := List.mem_range.1 hk
    rw [take_eight_drop _ _ (by omega), bitsetOfString_eight]
  · intro header
    rw [unpackBits_append]
    exact unpack_packedBody ((encodedStr L bufin).length / 8) _ (by omega)
      (encodedStr_chars L bufin hne)

theorem pack_unpack_inverse_witness :
    [0x61, 0x62] ≠ [] ∧
      unpackBits ([0x61, 1, 48, 0x62, 1, 49, 0] ++
          bodyBytes (encodedStr StdLib.simple [0x61, 0x62]).length 0
            (encodedStr StdLib.simple [0x61, 0x62]))
        7 = encodedStr StdLib.simple [0x61, 0x62] :=
  ⟨by decide, (pack_unpack_inverse StdLib.simple [0x61, 0x62] (by decide)).2
    [0x61, 1, 48, 0x62, 1, 49, 0]⟩

/-! ## Single-value frame, code lengths, Kraft sum -/

theorem huffman_encode_replicate_outcome (L : StdLib) (n v : Nat) (hn : 1 ≤ n)
    (hv : v < 256) :
    huffman_encode L (some (List.replicate n v)) =
      .returned 0 (some ⟨[v, 0, 0, 0] ++ List.replicate 253 0, 4⟩) := by
  have hne : List.replicate n v ≠ [] := by
    intro e
    have := congrArg List.length e
    simp at this
    omega
  obtain ⟨h1, h2⟩ := frameLayout_replicate L n v hn
  have hb : ∀ x ∈ List.replicate n v, x < 256 := by
    intro x hx
    rw [(List.mem_replicate.1 hx).2]; exact hv
  rw [encode_outcome_of_fits L _ hne hb (by rw [h1, h2]; simp) (by rw [h1]; simp), h1, h2]
  rfl

/-- C17. Single-value frame: for every `n ≥ 1` and byte `v`, `huffman_encode` of `n` copies
of `v` returns 0 with the 4-byte frame `[v, 0, 0, 0]` (record with code length 0, sentinel,
one zero body byte), so buffers of any two lengths over one byte value get the same
outputs. -/
theorem single_value_frame (L : StdLib) (n v : Nat) (hn : 1 ≤ n) (hv : v < 256) :
    huffman_encode L (some (List.replicate n v)) =
        .returned 0 (some ⟨[v, 0, 0, 0] ++ List.replicate 253 0, 4⟩) ∧
      (huffman_encode L (some (List.replicate n v))).frame = some [v, 0, 0, 0] ∧
      ∀ m, 1 ≤ m → huffman_encode L (some (List.replicate m v)) =
        huffman_encode L (some (List.replicate n v)) := by
  have e := huffman_encode_replicate_outcome L n v hn hv
  refine ⟨e, by rw [e]; rfl, ?_⟩
  intro m hm
  rw [e, huffman_encode_replicate_outcome L m v hm hv]

theorem single_value_frame_witness :
    (huffman_encode StdLib.simple (some [0x41, 0x41, 0x41])).frame = some [0x41, 0, 0, 0] ∧
      huffman_encode StdLib.simple (some [0x41]) =
        huffman_encode StdLib.simple (some [0x41, 0x41, 0x41]) :=
  ⟨(single_value_frame StdLib.simple 3 0x41 (by decide) (by decide)).2.1,
    (single_value_frame StdLib.simple 3 0x41 (by decide) (by decide)).2.2 1 (by decide)⟩

/-- C18. Code length fits the length byte: for a non-empty buffer of bytes with `n` distinct
values, every code of the table has length at most `n - 1`, hence at most 255, and the
length byte `size() % 256` stored in the header is the code length itself. -/
theorem code_length_bound (L : StdLib) (bufin : List Nat) (hne : bufin ≠ [])
    (hbytes : ∀ x ∈ bufin, x < 256) :
    ∀ p ∈ codeTable L bufin,
      p.2.length ≤ (countFreq bufin).length - 1 ∧ p.2.length ≤ 255 ∧
        p.2.length % 256 = p.2.length := by
  obtain ⟨root, _, hp, hperm, e⟩ := codeTable_spec L bufin hne
  intro p hmem
  rw [e] at hmem
  have h1 := codes_length_le hp [] p hmem
  have h2 := hperm.length_eq
  have h3 := countFreq_length_le bufin hbytes
  simp only [List.length_nil] at h1
  refine ⟨by omega, by omega, Nat.mod_eq_of_lt (by omega)⟩

theorem code_length_bound_witness :
    (0x62, [49, 49]) ∈ codeTable StdLib.simple [0x61, 0x61, 0x61, 0x62, 0x62, 0x63] ∧
      [49, 49].length ≤ (countFreq [0x61, 0x61, 0x61, 0x62, 0x62, 0x63]).length - 1 :=
  ⟨by decide,
    (code_length_bound StdLib.simple [0x61, 0x61, 0x61, 0x62, 0x62, 0x63] (by decide)
      (by decide) (0x62, [49, 49]) (by decide)).1⟩

theorem kraftSum_codes {t : HuffmanNode} (h : t.Proper) (str : List Nat) :
    kraftSum (t.codes str) = (1 / 2 : ℚ) ^ str.length := by
  induction h generalizing str with
  | leaf d f => simp [kraftSum, HuffmanNode.codes]
  | inner d f l r hl hr ihl ihr =>
    have hne : ¬ (l = .null ∧ r = .null) := fun h => hl.ne_null h.1
    have ihl' := ihl (str ++ [48])
    have ihr' := ihr (str ++ [49])
    simp only [kraftSum] at ihl' ihr' ⊢
    simp only [HuffmanNode.codes, if_neg hne, List.nil_append, List.map_append,
      List.sum_append, ihl', ihr', List.length_append, List.length_singleton, pow_succ]
    ring

/-- C19. Kraft equality: for every non-empty buffer the code lengths of the table built by
`huffman_encode` satisfy `∑ 2^(-length) = 1`; the tree is full (every node is a leaf or has
two children). -/
theorem kraft_equality (L : StdLib) (bufin : List Nat) (hne : bufin ≠ []) :
    ((codeTable L bufin).map fun p => (1 / 2 : ℚ) ^ p.2.length).sum = 1 ∧
      ∃ root, finalQueue L bufin = [root] ∧ root.Proper := by
  obtain ⟨root, hq, hp, _, e⟩ := codeTable_spec L bufin hne
  refine ⟨?_, root, hq, hp⟩
  have := kraftSum_codes hp []
  rw [← e] at this
  simpa [kraftSum] using this

theorem kraft_equality_witness :
    [0x61, 0x61, 0x61, 0x62, 0x62, 0x63] ≠ [] ∧
      ((codeTable StdLib.simple [0x61, 0x61, 0x61, 0x62, 0x62, 0x63]).map
        fun p => (1 / 2 : ℚ) ^ p.2.length).sum = 1 :=
  ⟨by decide,
    (kraft_equality StdLib.simple [0x61, 0x61, 0x61, 0x62, 0x62, 0x63] (by decide)).1⟩

/-! ## Frequency table -/

theorem lookup_freqIncr (m : List (Nat × Nat)) (x k : Nat) :
    (freqIncr m x).lookup k =
      if k = x then some (((m.lookup x).getD 0 + 1) % 2 ^ 32) else m.lookup k := by
  induction m with
  | nil =>
    by_cases h : k = x
    · subst h; simp [freqIncr, List.lookup]
    · have : (k == x) = false := by simpa using h
      simp [freqIncr, List.lookup, h, this]
  | cons p t ih =>
    obtain ⟨k', c⟩ := p
    by_cases hk : k' = x
    · subst hk
      by_cases h : k = k'
      · subst h; simp [freqIncr, List.lookup]
      · have : (k == k') = false := by simpa using h
        simp [freqIncr, List.lookup, h, this]
    · have hx : (x == k') = false := by simpa using Ne.symm hk
      by_cases h : k = k'
      · subst h
        have hkx : ¬ k = x := hk
        simp [freqIncr, List.lookup, hk, hkx]
      · have hkk : (k == k') = false := by simpa using h
        simp only [freqIncr, if_neg hk, List.lookup, hkk, hx, ih]

theorem sum_freqIncr (m : List (Nat × Nat)) (x : Nat)
    (h : (m.lookup x).getD 0 + 1 < 2 ^ 32) :
    ((freqIncr m x).map Prod.snd).sum = (m.map Prod.snd).sum + 1 := by
  induction m with
  | nil => simp [freqIncr]
  | cons p t ih =>
    obtain ⟨k', c⟩ := p
    by_cases hk : k' = x
    · subst hk
      simp only [List.lookup, beq_self_eq_true, Option.getD_some] at h
      simp only [freqIncr, if_true, List.map_cons, List.sum_cons, Nat.mod_eq_of_lt h]
      omega
    · have hx : (x == k') = false := by simpa using Ne.symm hk
      simp only [List.lookup, hx] at h
      simp only [freqIncr, if_neg hk, List.map_cons, List.sum_cons, ih h]
      omega

theorem countFreq_append_singleton (b : List Nat) (x : Nat) :
    countFreq (b ++ [x]) = freqIncr (countFreq b) x := by
  simp [countFreq, List.foldl_append]

theorem lookup_countFreq (b : List Nat) (hlen : b.length < 2 ^ 32) (k : Nat) :
    (countFreq b).lookup k = if k ∈ b then some (b.count k) else none := by
  induction b using List.reverseRecOn with
  | nil => simp [countFreq]
  | append_singleton l a ih =>
    have hl : l.length < 2 ^ 32 := by simp at hlen; omega
    have hcnt : l.count a ≤ l.length := List.count_le_length _ _
    rw [countFreq_append_singleton, lookup_freqIncr]
    by_cases hk : k = a
    · subst hk
      rw [if_pos rfl, ih hl]
      have hc : (l ++ [k]).count k = l.count k + 1 := by simp
      simp only [List.mem_append, List.mem_singleton, or_true, if_true, hc]
      by_cases hm : k ∈ l
      · simp only [if_pos hm, Option.getD_some]
        rw [Nat.mod_eq_of_lt (by simp at hlen; omega)]
      · simp only [if_neg hm, Option.getD_none, List.count_eq_zero_of_not_mem hm]
        rfl
    · rw [if_neg hk, ih hl]
      have hc : (l ++ [a]).count k = l.count k := by
        simp [List.count_append, List.count_singleton, Ne.symm hk]
      simp only [List.mem_append, List.mem_singleton, hk, or_false, hc]

theorem sum_countFreq (b : List Nat) (hlen : b.length < 2 ^ 32) :
    ((countFreq b).map Prod.snd).sum = b.length := by
  induction b using List.reverseRecOn with
  | nil => simp [countFreq]
  | append_singleton l a ih =>
    have hl : l.length < 2 ^ 32 := by simp at hlen; omega
    have hcnt : l.count a ≤ l.length := List.count_le_length _ _
    rw [countFreq_append_singleton, sum_freqIncr, ih hl]
    · simp
    · rw [lookup_countFreq l hl]
      simp only [List.length_append, List.length_singleton] at hlen
      split
      · simp only [Option.getD_some]; omega
      · simp only [Option.getD_none]; omega

theorem mem_iff_lookup {β : Type} (m : List (Nat × β)) (hnd : (m.map Prod.fst).Nodup)
    (k : Nat) (c : β) : (k, c) ∈ m ↔ m.lookup k = some c := by
  induction m with
  | nil => simp
  | cons p t ih =>
    obtain ⟨k', c'⟩ := p
    simp only [List.map_cons, List.nodup_cons] at hnd
    by_cases hk : k = k'
    · subst hk
      simp only [List.mem_cons, Prod.mk.injEq, true_and, List.lookup, beq_self_eq_true,
        Option.some.injEq]
      constructor
      · rintro (h | h)
        · exact h.symm
        · exact absurd (List.mem_map_of_mem Prod.fst h) hnd.1
      · intro h; exact Or.inl h.symm
    · have hkk : (k == k') = false := by simpa using hk
      simp only [List.mem_cons, Prod.mk.injEq, hk, false_and, false_or, List.lookup, hkk]
      exact ih hnd.2

/-- C16. Frequency table: for a buffer of fewer than `2^32` bytes the table built by
`huffman_encode` maps each byte value to the number of its occurrences, has one entry exactly
for each value that occurs (so no entry has count 0), and its counts add up to the buffer
length. -/
theorem frequency_table (bufin : List Nat) (hlen : bufin.length < 2 ^ 32) :
    (∀ k c, (k, c) ∈ countFreq bufin ↔ k ∈ bufin ∧ c = bufin.count k) ∧
      (∀ k c, (k, c) ∈ countFreq bufin → 0 < c) ∧
      ((countFreq bufin).map Prod.fst).Nodup ∧
      ((countFreq bufin).map Prod.snd).sum = bufin.length := by
  have hmem : ∀ k c, (k, c) ∈ countFreq bufin ↔ k ∈ bufin ∧ c = bufin.count k := by
    intro k c
    rw [mem_iff_lookup _ (countFreq_keys_nodup bufin), lookup_countFreq bufin hlen]
    by_cases hk : k ∈ bufin
    · rw [if_pos hk]
      simp only [Option.some.injEq, hk, true_and]
      exact eq_comm
    · simp [hk]
  refine ⟨hmem, ?_, countFreq_keys_nodup bufin, sum_countFreq bufin hlen⟩
  intro k c h
  obtain ⟨hk, rfl⟩ := (hmem k c).1 h
  exact List.count_pos_iff.2 hk

theorem frequency_table_witness :
    [0x61, 0x61, 0x61, 0x62, 0x62, 0x63].length < 2 ^ 32 ∧
      ((countFreq [0x61, 0x61, 0x61, 0x62, 0x62, 0x63]).map Prod.snd).sum =
        [0x61, 0x61, 0x61, 0x62, 0x62, 0x63].length :=
  ⟨by decide, (frequency_table [0x61, 0x61, 0x61, 0x62, 0x62, 0x63] (by decide)).2.2.2⟩

/-! ## Exchange argument on weighted depths -/

theorem pairKraft_cons (p : Nat × Nat) (P : List (Nat × Nat)) :
    pairKraft (p :: P) = (1 / 2 : ℚ) ^ p.2 + pairKraft P := by
  simp [pairKraft]

theorem pairCost_cons (p : Nat × Nat) (P : List (Nat × Nat)) :
    pairCost (p :: P) = p.1 * p.2 + pairCost P := by
  simp [pairCost]

theorem pairKraft_perm {P Q : List (Nat × Nat)} (h : P.Perm Q) : pairKraft P = pairKraft Q :=
  (h.map _).sum_eq

theorem pairCost_perm {P Q : List (Nat × Nat)} (h : P.Perm Q) : pairCost P = pairCost Q :=
  (h.map _).sum_eq

theorem perm_cons_of_mem {α : Type} {x : α} {T : List α} (h : x ∈ T) :
    ∃ T0, T.Perm (x :: T0) := by
  obtain ⟨s, t, rfl⟩ := List.append_of_mem h
  exact ⟨s ++ t, List.perm_middle⟩

theorem exists_max_depth (T : List (Nat × Nat)) (hT : T ≠ []) :
    ∃ x ∈ T, ∀ p ∈ T, p.2 ≤ x.2 := by
  induction T with
  | nil => exact absurd rfl hT
  | cons a t ih =>
    by_cases ht : t = []
    · subst ht; exact ⟨a, by simp, by simp⟩
    · obtain ⟨m, hm, hmax⟩ := ih ht
      by_cases hle : m.2 ≤ a.2
      · refine ⟨a, by simp, ?_⟩
        intro p hp
        rcases List.mem_cons.1 hp with rfl | hp
        · exact le_refl _
        · exact le_trans (hmax p hp) hle
      · refine ⟨m, List.mem_cons_of_mem _ hm, ?_⟩
        intro p hp
        rcases List.mem_cons.1 hp with rfl | hp
        · omega
        · exact hmax p hp

theorem swap_cost_le (w d x e : Nat) (hw : w ≤ x) (hd : d ≤ e) :
    w * e + x * d ≤ w * d + x * e := by
  obtain ⟨u, rfl⟩ := Nat.exists_eq_add_of_le hw
  obtain ⟨v, rfl⟩ := Nat.exists_eq_add_of_le hd
  nlinarith [Nat.zero_le (u * v)]

/-- The lightest entry can take the greatest depth without raising the cost. -/
theorem swap_deepest (w d : Nat) (T : List (Nat × Nat)) (hw : ∀ p ∈ T, w ≤ p.1) :
    ∃ e T', (T'.map Prod.fst).Perm (T.map Prod.fst) ∧
      pairKraft ((w, e) :: T') = pairKraft ((w, d) :: T) ∧
      pairCost ((w, e) :: T') ≤ pairCost ((w, d) :: T) ∧
      (∀ p ∈ T', p.2 ≤ e) ∧ (e = d ∨ ∃ p ∈ T, p.2 = e) := by
  by_cases hT : T = []
  · subst hT
    exact ⟨d, [], List.Perm.refl _, rfl, le_refl _, by simp, Or.inl rfl⟩
  · obtain ⟨x, hx, hmax⟩ := exists_max_depth T hT
    by_cases hle : x.2 ≤ d
    · exact ⟨d, T, List.Perm.refl _, rfl, le_refl _,
        fun p hp => le_trans (hmax p hp) hle, Or.inl rfl⟩
    · obtain ⟨T0, hperm⟩ := perm_cons_of_mem hx
      refine ⟨x.2, (x.1, d) :: T0, ?_, ?_, ?_, ?_, Or.inr ⟨x, hx, rfl⟩⟩
      · exact (hperm.map Prod.fst).symm
      · rw [pairKraft_cons, pairKraft_cons, pairKraft_cons, pairKraft_perm hperm,
          pairKraft_cons]
        simp only []
        ring
      · rw [pairCost_cons, pairCost_cons, pairCost_cons, pairCost_perm hperm, pairCost_cons]
        simp only []
        have := swap_cost_le w d x.1 x.2 (hw x hx) (by omega)
        omega
      · intro p hp
        rcases List.mem_cons.1 hp with rfl | hp
        · simp only []; omega
        · exact hmax p (hperm.mem_iff.2 (List.mem_cons_of_mem _ hp))

theorem extract_weight (P : List (Nat × Nat)) (w : Nat) (R : List Nat)
    (h : (P.map Prod.fst).Perm (w :: R)) :
    ∃ d P0, P.Perm ((w, d) :: P0) ∧ (P0.map Prod.fst).Perm R := by
  have hw : w ∈ P.map Prod.fst := h.mem_iff.2 (by simp)
  obtain ⟨p, hp, hpw⟩ := List.mem_map.1 hw
  obtain ⟨w', d⟩ := p
  simp only at hpw
  subst hpw
  obtain ⟨P0, hperm⟩ := perm_cons_of_mem hp
  refine ⟨d, P0, hperm, ?_⟩
  have := (hperm.map Prod.fst).symm.trans h
  simpa using this.cons_inv

theorem kraft_scaled (P : List (Nat × Nat)) (D : Nat) (h : ∀ p ∈ P, p.2 ≤ D) :
    ∃ S : Nat, pairKraft P * 2 ^ D = (S : ℚ) ∧ P.length ≤ S := by
  induction P with
  | nil => exact ⟨0, by simp [pairKraft], by simp⟩
  | cons p t ih =>
    obtain ⟨S, hS, hl⟩ := ih (fun q hq => h q (List.mem_cons_of_mem _ hq))
    have hp := h p (by simp)
    refine ⟨2 ^ (D - p.2) + S, ?_, ?_⟩
    · rw [pairKraft_cons, add_mul, hS]
      have : (1 / 2 : ℚ) ^ p.2 * 2 ^ D = 2 ^ (D - p.2) := by
        obtain ⟨k, hk⟩ := Nat.exists_eq_add_of_le hp
        rw [hk, Nat.add_sub_cancel_left, pow_add, ← mul_assoc, ← mul_pow]
        norm_num
      rw [this]
      push_cast
      ring
    · have : 1 ≤ 2 ^ (D - p.2) := Nat.one_le_two_pow
      simp only [List.length_cons]
      omega
/-- The exchange step behind Huffman's algorithm: in any depth assignment with Kraft sum at
most 1, the two lightest entries can be made siblings at the greatest depth and merged into
one entry, lowering the cost by at least their weights. -/
theorem merge_lightest (a b : Nat) (R : List Nat) (P : List (Nat × Nat))
    (hP : (P.map Prod.fst).Perm (a :: b :: R)) (hab : a ≤ b) (ha : ∀ r ∈ R, a ≤ r)
    (hb : ∀ r ∈ R, b ≤ r) (hk : pairKraft P ≤ 1) :
    ∃ P', (P'.map Prod.fst).Perm ((a + b) :: R) ∧ pairKraft P' ≤ 1 ∧
      pairCost P' + a + b ≤ pairCost P := by
  obtain ⟨da, P1, hP1, hR1⟩ := extract_weight P a (b :: R) hP
  have hw1 : ∀ p ∈ P1, a ≤ p.1 := by
    intro p hp
    have : p.1 ∈ b :: R := hR1.mem_iff.1 (List.mem_map_of_mem _ hp)
    rcases List.mem_cons.1 this with h | h
    · omega
    · exact ha _ h
  obtain ⟨e, T, hT, hkT, hcT, hdT, _⟩ := swap_deepest a da P1 hw1
  obtain ⟨db, P2, hP2, hR2⟩ := extract_weight T b R (hT.trans hR1)
  have hw2 : ∀ p ∈ P2, b ≤ p.1 := by
    intro p hp
    exact hb _ (hR2.mem_iff.1 (List.mem_map_of_mem _ hp))
  obtain ⟨e2, T2, hT2, hkT2, hcT2, hdT2, he2⟩ := swap_deepest b db P2 hw2
  have he2e : e2 ≤ e := by
    rcases he2 with h | ⟨p, hp, h⟩
    · have := hdT (b, db) (hP2.mem_iff.2 (by simp))
      simp only [] at this
      omega
    · have := hdT p (hP2.mem_iff.2 (List.mem_cons_of_mem _ hp))
      omega
  -- the Kraft sum and the cost of `P` in terms of the rearranged entries
  have hK : pairKraft P = (1 / 2 : ℚ) ^ e + pairKraft ((b, e2) :: T2) := by
    rw [pairKraft_perm hP1, ← hkT, pairKraft_cons, pairKraft_perm hP2, ← hkT2]
  have hC : a * e + pairCost ((b, e2) :: T2) ≤ pairCost P := by
    have h1 : pairCost ((a, e) :: T) = a * e + pairCost ((b, db) :: P2) := by
      rw [pairCost_cons, pairCost_perm hP2]
    rw [pairCost_perm hP1]
    omega
  obtain ⟨S, hS, hSl⟩ := kraft_scaled ((b, e2) :: T2) e2 (by
    intro p hp
    rcases List.mem_cons.1 hp with rfl | hp
    · exact le_refl _
    · exact hdT2 p hp)
  have hpos : (0 : ℚ) < 2 ^ e2 := by positivity
  have hS1 : 1 ≤ S := by simp only [List.length_cons] at hSl; omega
  have hlt : (S : ℚ) < 2 ^ e2 := by
    have h1 : pairKraft ((b, e2) :: T2) < 1 := by
      have : (0 : ℚ) < (1 / 2 : ℚ) ^ e := by positivity
      linarith
    calc (S : ℚ) = pairKraft ((b, e2) :: T2) * 2 ^ e2 := hS.symm
      _ < 1 * 2 ^ e2 := by exact mul_lt_mul_of_pos_right h1 hpos
      _ = 2 ^ e2 := one_mul _
  have hltN : S < 2 ^ e2 := by exact_mod_cast hlt
  have he2pos : 1 ≤ e2 := by
    rcases Nat.eq_zero_or_pos e2 with h0 | h0
    · rw [h0] at hltN; simp at hltN; omega
    · exact h0
  obtain ⟨m, rfl⟩ : ∃ m, e2 = m + 1 := ⟨e2 - 1, by omega⟩
  refine ⟨(a + b, m) :: T2, ?_, ?_, ?_⟩
  · simpa using (hT2.trans hR2).cons (a + b)
  · have hle : ((S + 1 : Nat) : ℚ) ≤ 2 ^ (m + 1) := by exact_mod_cast hltN
    have hsum : pairKraft ((a + b, m) :: T2) * 2 ^ (m + 1) = ((S + 1 : Nat) : ℚ) := by
      rw [pairKraft_cons] at hS ⊢
      simp only [] at hS ⊢
      have h2 : (1 / 2 : ℚ) ^ m = 2 * (1 / 2 : ℚ) ^ (m + 1) := by
        rw [pow_succ]; ring
      have h3 : (1 / 2 : ℚ) ^ (m + 1) * 2 ^ (m + 1) = 1 := by
        rw [← mul_pow]; norm_num
      push_cast
      rw [h2]
      linear_combination hS + h3
    have : pairKraft ((a + b, m) :: T2) * 2 ^ (m + 1) ≤ 1 * 2 ^ (m + 1) := by
      rw [hsum, one_mul]; exact hle
    exact le_of_mul_le_mul_right this hpos
  · rw [pairCost_cons] at hC ⊢
    simp only [] at hC ⊢
    have h1 : a * (m + 1) ≤ a * e := Nat.mul_le_mul_left _ he2e
    have h2 : (a + b) * m + a + b = a * (m + 1) + b * (m + 1) := by ring
    omega

/-! ## What the merge loop preserves -/

theorem buildTree_succ (L : StdLib) (fuel : Nat) (q : List HuffmanNode) :
    buildTree L (fuel + 1) q =
      if q.length > 1 then buildTree L fuel (mergeStep L q) else q := rfl

theorem buildTree_invariant (L : StdLib) (P : List HuffmanNode → Prop)
    (hstep : ∀ q, 1 < q.length → P q → P (mergeStep L q)) :
    ∀ (fuel : Nat) (q : List HuffmanNode), P q → P (buildTree L fuel q) := by
  intro fuel
  induction fuel with
  | zero => intro q h; exact h
  | succ n ih =>
    intro q h
    rw [buildTree_succ]
    split
    · next hl => exact ih _ (hstep q hl h)
    · exact h

theorem freq_eq_weight {t : HuffmanNode} (hp : t.Proper) (hs : t.FreqSums) :
    t.freq = t.weight := by
  induction hp with
  | leaf d f => simp [HuffmanNode.freq, HuffmanNode.weight, HuffmanNode.leaves]
  | inner d f l r hl hr ihl ihr =>
    have hne : ¬ (l = .null ∧ r = .null) := fun h => hl.ne_null h.1
    simp only [HuffmanNode.FreqSums, hne, false_or] at hs
    obtain ⟨hf, hsl, hsr⟩ := hs
    simp only [HuffmanNode.weight] at ihl ihr ⊢
    rw [leaves_node_of_ne_null _ _ hl.ne_null, List.map_append, List.sum_append,
      ← ihl hsl, ← ihr hsr]
    simpa [HuffmanNode.freq] using hf

theorem cost_node {l r : HuffmanNode} (d f : Nat) (hl : l ≠ .null) :
    (HuffmanNode.node d f l r).cost = l.cost + r.cost + l.weight + r.weight := by
  simp [HuffmanNode.cost, HuffmanNode.weight, hl]

theorem weight_le_of_mem {q : List HuffmanNode} {t : HuffmanNode} (h : t ∈ q) :
    t.weight ≤ ((q.flatMap HuffmanNode.leaves).map Prod.snd).sum := by
  obtain ⟨s, u, rfl⟩ := List.append_of_mem h
  simp only [List.flatMap_append, List.flatMap_cons, List.map_append, List.sum_append,
    HuffmanNode.weight]
  omega

theorem queueInv_step (L : StdLib) (F0 : List (Nat × Nat))
    (hF : (F0.map Prod.snd).sum < 2 ^ 32) (q : List HuffmanNode) (hlen : 1 < q.length)
    (h : QueueInv F0 q) : QueueInv F0 (mergeStep L q) := by
  obtain ⟨hall, hleaves, hopt⟩ := h
  obtain ⟨m1, m2, hperm⟩ := merge_perm L hlen
  have hq : q ≠ [] := by intro e; subst e; simp at hlen
  have hq1 : pqPop L q ≠ [] := List.ne_nil_of_mem m2
  have m2' : pqTop L (pqPop L q) ∈ q := List.mem_of_mem_erase m2
  obtain ⟨p1, s1⟩ := hall _ m1
  obtain ⟨p2, s2⟩ := hall _ m2'
  have w1 := freq_eq_weight p1 s1
  have w2 := freq_eq_weight p2 s2
  -- no wrap-around in the sum of the two frequencies
  have htot : (pqTop L q).weight + (pqTop L (pqPop L q)).weight ≤
      ((q.flatMap HuffmanNode.leaves).map Prod.snd).sum := by
    have := ((hperm.flatMap_right HuffmanNode.leaves).map Prod.snd).sum_eq
    rw [this]
    simp only [List.flatMap_cons, List.map_append, List.sum_append, HuffmanNode.weight]
    omega
  have hsum : ((q.flatMap HuffmanNode.leaves).map Prod.snd).sum = (F0.map Prod.snd).sum :=
    (hleaves.map Prod.snd).sum_eq
  have hmod : ((pqTop L q).freq + (pqTop L (pqPop L q)).freq) % 2 ^ 32 =
      (pqTop L q).freq + (pqTop L (pqPop L q)).freq := Nat.mod_eq_of_lt (by omega)
  have hrest : ∀ t ∈ pqPop L (pqPop L q), t ∈ pqPop L q := fun t ht =>
    List.mem_of_mem_erase ht
  unfold mergeStep
  rw [hmod]
  refine ⟨?_, ?_, ?_⟩
  · intro t ht
    simp only [pqPush, List.mem_append, List.mem_singleton] at ht
    rcases ht with ht | rfl
    · exact hall t (List.mem_of_mem_erase (hrest t ht))
    · exact ⟨HuffmanNode.Proper.inner _ _ _ _ p1 p2, Or.inr ⟨rfl, s1, s2⟩⟩
  · refine List.Perm.trans ?_ hleaves
    simp only [pqPush, List.flatMap_append, List.flatMap_cons, List.flatMap_nil,
      List.append_nil, leaves_node_of_ne_null _ _ p1.ne_null]
    refine List.Perm.trans ?_ (List.Perm.flatMap_right _ hperm.symm)
    simp only [List.flatMap_cons]
    exact List.perm_append_comm.trans (by rw [List.append_assoc])
  · intro P0 hP0 hk0
    obtain ⟨P, hP, hk, hc⟩ := hopt P0 hP0 hk0
    have hPq : (P.map Prod.fst).Perm ((pqTop L q).freq :: (pqTop L (pqPop L q)).freq ::
        (pqPop L (pqPop L q)).map HuffmanNode.freq) := by
      refine hP.trans ?_
      simpa using hperm.map HuffmanNode.freq
    obtain ⟨P', hP', hk', hc'⟩ := merge_lightest _ _ _ P hPq
      (pqTop_le L hq _ m2')
      (by
        intro x hx
        obtain ⟨t, ht, rfl⟩ := List.mem_map.1 hx
        exact pqTop_le L hq t (List.mem_of_mem_erase (hrest t ht)))
      (by
        intro x hx
        obtain ⟨t, ht, rfl⟩ := List.mem_map.1 hx
        exact pqTop_le L hq1 t (hrest t ht))
      hk
    refine ⟨P', ?_, hk', ?_⟩
    · refine hP'.trans ?_
      simp only [pqPush, List.map_append, List.map_cons, List.map_nil, HuffmanNode.freq]
      exact (List.perm_append_singleton _ _).symm
    · have hcq : (q.map HuffmanNode.cost).sum =
          (pqTop L q).cost + ((pqTop L (pqPop L q)).cost +
            ((pqPop L (pqPop L q)).map HuffmanNode.cost).sum) := by
        have := (hperm.map HuffmanNode.cost).sum_eq
        simpa using this
      simp only [pqPush, List.map_append, List.map_cons, List.map_nil, List.sum_append,
        List.sum_cons, List.sum_nil, cost_node _ _ p1.ne_null]
      omega

theorem queueInv_init (L : StdLib) (F0 : List (Nat × Nat)) :
    QueueInv F0 (initQueue L F0) := by
  rw [initQueue_eq]
  refine ⟨?_, ?_, ?_⟩
  · intro t ht
    obtain ⟨p, _, rfl⟩ := List.mem_map.1 ht
    exact ⟨HuffmanNode.Proper.leaf _ _, Or.inl ⟨rfl, rfl⟩⟩
  · rw [flatMap_leaves_map_leaf]
    exact L.freqOrder_perm _
  · intro P0 hP0 hk0
    refine ⟨P0, ?_, hk0, ?_⟩
    · refine hP0.trans ?_
      rw [List.map_map]
      exact ((L.freqOrder_perm F0).map Prod.snd).symm
    · have : ((L.freqOrder F0).map (fun p => HuffmanNode.leaf p.1 p.2)).map HuffmanNode.cost =
          (L.freqOrder F0).map (fun _ => 0) := by
        rw [List.map_map]
        apply List.map_congr_left
        intro p _
        simp [HuffmanNode.leaf, HuffmanNode.cost]
      rw [this]
      simp

theorem finalQueue_inv (L : StdLib) (b : List Nat) (hne : b ≠ []) (hlen : b.length < 2 ^ 32) :
    ∃ root, finalQueue L b = [root] ∧ root.Proper ∧ root.leaves.Perm (countFreq b) ∧
      QueueInv (countFreq b) [root] := by
  obtain ⟨root, e, hp, hperm⟩ := finalQueue_spec L b hne
  refine ⟨root, e, hp, hperm, ?_⟩
  have hF : ((countFreq b).map Prod.snd).sum < 2 ^ 32 := by
    rw [sum_countFreq b hlen]; exact hlen
  have := buildTree_invariant L (QueueInv (countFreq b))
    (fun q hl h => queueInv_step L _ hF q hl h)
    (initQueue L (countFreq b)).length _ (queueInv_init L (countFreq b))
  rw [← e]
  exact this

/-- C15. Tree invariant: for a non-empty buffer of fewer than `2^32` bytes, the merge loop
of `huffman_encode` ends with one tree in the queue, in which every node is a leaf or has two
children and carries the sum of their frequencies; its leaves are exactly the entries of the
frequency table, one per distinct byte value, and the root frequency is the buffer
length. -/
theorem tree_invariant (L : StdLib) (bufin : List Nat) (hne : bufin ≠ [])
    (hlen : bufin.length < 2 ^ 32) :
    ∃ root, finalQueue L bufin = [root] ∧ root.Proper ∧ root.FreqSums ∧
      root.leaves.Perm (countFreq bufin) ∧ (root.leaves.map Prod.fst).Nodup ∧
      root.freq = bufin.length := by
  obtain ⟨root, e, hp, hperm, hinv⟩ := finalQueue_inv L bufin hne hlen
  have hs := (hinv.1 root (by simp)).2
  refine ⟨root, e, hp, hs, hperm, ?_, ?_⟩
  · exact ((hperm.map Prod.fst).nodup_iff).2 (countFreq_keys_nodup bufin)
  · rw [freq_eq_weight hp hs, HuffmanNode.weight, (hperm.map Prod.snd).sum_eq,
      sum_countFreq bufin hlen]

theorem tree_invariant_witness :
    finalQueue StdLib.simple [0x61, 0x61, 0x61, 0x62, 0x62, 0x63] =
        [.node 0 6 (.node 0x61 3 .null .null)
          (.node 0 3 (.node 0x63 1 .null .null) (.node 0x62 2 .null .null))] ∧
      ∃ root, finalQueue StdLib.simple [0x61, 0x61, 0x61, 0x62, 0x62, 0x63] = [root] ∧
        root.freq = 6 :=
  ⟨by decide,
    (tree_invariant StdLib.simple [0x61, 0x61, 0x61, 0x62, 0x62, 0x63] (by decide)
      (by decide)).imp fun _ h => ⟨h.1, h.2.2.2.2.2⟩⟩

/-! ## Kraft inequality for prefix-free binary tables -/

theorem kraftSum_cons (p : Nat × List Nat) (m : HuffmanCodeMap) :
    kraftSum (p :: m) = (1 / 2 : ℚ) ^ p.2.length + kraftSum m := by
  simp [kraftSum]

theorem tailsOf_cons (x : Nat) (k c : Nat) (t : List Nat) (m : HuffmanCodeMap) :
    tailsOf x ((k, c :: t) :: m) = if c = x then (k, t) :: tailsOf x m else tailsOf x m := by
  unfold tailsOf
  rw [List.filterMap_cons]
  by_cases h : c = x <;> simp [h]

theorem kraftSum_split (m : HuffmanCodeMap) (hne : ∀ p ∈ m, p.2 ≠ [])
    (hbin : ∀ p ∈ m, ∀ c ∈ p.2, c = 48 ∨ c = 49) :
    kraftSum m = (kraftSum (tailsOf 48 m) + kraftSum (tailsOf 49 m)) / 2 := by
  induction m with
  | nil => simp [kraftSum, tailsOf]
  | cons p t ih =>
    obtain ⟨k, code⟩ := p
    have ih' := ih (fun q hq => hne q (List.mem_cons_of_mem _ hq))
      (fun q hq => hbin q (List.mem_cons_of_mem _ hq))
    match code, hne (k, code) (by simp), hbin (k, code) (by simp) with
    | c :: u, _, hb =>
      rw [kraftSum_cons, ih', tailsOf_cons, tailsOf_cons]
      rcases hb c (by simp) with rfl | rfl
      · simp only [if_true, show ¬ (48 = 49) by decide, if_false, kraftSum_cons,
          List.length_cons, pow_succ]
        ring
      · simp only [if_true, show ¬ (49 = 48) by decide, if_false, kraftSum_cons,
          List.length_cons, pow_succ]
        ring

theorem pairwise_tailsOf (x : Nat) (m : HuffmanCodeMap)
    (h : m.Pairwise (fun p q => Incomparable p.2 q.2)) :
    (tailsOf x m).Pairwise (fun p q => Incomparable p.2 q.2) := by
  unfold tailsOf
  refine List.Pairwise.filterMap _ ?_ h
  intro p q hpq b hb b' hb'
  obtain ⟨k, code⟩ := p
  obtain ⟨k', code'⟩ := q
  match code, code', hpq, hb, hb' with
  | [], _, _, hb, _ => simp at hb
  | _ :: _, [], _, _, hb' => simp at hb'
  | c :: u, c' :: u', hpq, hb, hb' =>
    simp only [Option.mem_def] at hb hb'
    split at hb
    · next hc =>
      split at hb'
      · next hc' =>
        simp only [Option.some.injEq] at hb hb'
        subst hb hb' hc hc'
        simp only [Incomparable, List.cons_prefix_cons, true_and] at hpq ⊢
        exact hpq
      · simp at hb'
    · simp at hb

theorem mem_tailsOf {x : Nat} {m : HuffmanCodeMap} {q : Nat × List Nat}
    (h : q ∈ tailsOf x m) : (q.1, x :: q.2) ∈ m := by
  unfold tailsOf at h
  obtain ⟨p, hp, hq⟩ := List.mem_filterMap.1 h
  obtain ⟨k, code⟩ := p
  match code, hq with
  | [], hq => simp at hq
  | c :: u, hq =>
    simp only at hq
    split at hq
    · next hc =>
      simp only [Option.some.injEq] at hq
      subst hq hc
      exact hp
    · simp at hq

theorem eq_singleton_of_nil_mem (m : HuffmanCodeMap)
    (h : m.Pairwise (fun p q => Incomparable p.2 q.2)) (k : Nat) (hk : (k, []) ∈ m) :
    m = [(k, [])] := by
  match m, h, hk with
  | [p], _, hk => simpa [eq_comm] using hk
  | p :: q :: t, h, hk =>
    exfalso
    rw [List.pairwise_cons] at h
    rcases List.mem_cons.1 hk with e | hk'
    · have := (h.1 q (by simp)).1
      rw [← e] at this
      exact this List.nil_prefix
    · have := (h.1 (k, []) hk').2
      exact this List.nil_prefix

/-- Kraft's inequality: a prefix-free table of binary codes has Kraft sum at most 1. -/
theorem kraftSum_le_one (n : Nat) (m : HuffmanCodeMap) (hlen : ∀ p ∈ m, p.2.length ≤ n)
    (hbin : ∀ p ∈ m, ∀ c ∈ p.2, c = 48 ∨ c = 49)
    (hpf : m.Pairwise (fun p q => Incomparable p.2 q.2)) : kraftSum m ≤ 1 := by
  induction n generalizing m with
  | zero =>
    match m, hlen, hpf with
    | [], _, _ => simp [kraftSum]
    | (k, code) :: t, hlen, hpf =>
      have hc : code = [] := List.length_eq_zero.1 (Nat.le_zero.1 (hlen (k, code) (by simp)))
      subst hc
      rw [eq_singleton_of_nil_mem _ hpf k (by simp)]
      simp [kraftSum]
  | succ n ih =>
    by_cases hnil : ∃ k, (k, []) ∈ m
    · obtain ⟨k, hk⟩ := hnil
      rw [eq_singleton_of_nil_mem _ hpf k hk]
      simp [kraftSum]
    · have hne : ∀ p ∈ m, p.2 ≠ [] := by
        intro p hp e
        apply hnil
        exact ⟨p.1, by rw [← e]; exact hp⟩
      rw [kraftSum_split m hne hbin]
      have tails : ∀ x, kraftSum (tailsOf x m) ≤ 1 := by
        intro x
        refine ih _ ?_ ?_ (pairwise_tailsOf x m hpf)
        · intro q hq
          have := hlen _ (mem_tailsOf hq)
          simp only [List.length_cons] at this
          omega
        · intro q hq c hc
          exact hbin _ (mem_tailsOf hq) c (List.mem_cons_of_mem _ hc)
      have h0 := tails 48
      have h1 := tails 49
      linarith

/-! ## Optimality of the code table -/

theorem tableCost_append (F0 : List (Nat × Nat)) (m m' : HuffmanCodeMap) :
    tableCost F0 (m ++ m') = tableCost F0 m + tableCost F0 m' := by
  simp [tableCost]

theorem tableCost_codes (F0 : List (Nat × Nat)) (t : HuffmanNode) (str : List Nat)
    (hF : ∀ p ∈ t.leaves, freqOf F0 p.1 = p.2) :
    tableCost F0 (t.codes str) = t.cost + str.length * t.weight := by
  induction t generalizing str with
  | null => simp [tableCost, HuffmanNode.codes, HuffmanNode.cost, HuffmanNode.weight,
      HuffmanNode.leaves]
  | node d f l r ihl ihr =>
    by_cases hleaf : l = .null ∧ r = .null
    · obtain ⟨rfl, rfl⟩ := hleaf
      have := hF (d, f) (by simp [HuffmanNode.leaves])
      simp only at this
      simp [tableCost, HuffmanNode.codes, HuffmanNode.cost, HuffmanNode.weight,
        HuffmanNode.leaves, this, Nat.mul_comm]
    · have hl : ∀ p ∈ l.leaves, freqOf F0 p.1 = p.2 := fun p hp =>
        hF p (by simp [HuffmanNode.leaves, hp])
      have hr : ∀ p ∈ r.leaves, freqOf F0 p.1 = p.2 := fun p hp =>
        hF p (by simp [HuffmanNode.leaves, hp])
      simp only [HuffmanNode.codes, if_neg hleaf, List.nil_append, tableCost_append,
        ihl _ hl, ihr _ hr, HuffmanNode.cost, HuffmanNode.weight, HuffmanNode.leaves,
        List.map_append, List.sum_append, List.length_append, List.length_singleton]
      ring

theorem freqOf_of_mem (F0 : List (Nat × Nat)) (hnd : (F0.map Prod.fst).Nodup)
    (p : Nat × Nat) (hp : p ∈ F0) : freqOf F0 p.1 = p.2 := by
  unfold freqOf
  rw [(mem_iff_lookup F0 hnd p.1 p.2).1 hp]
  rfl

theorem map_freqOf_keys (F0 : List (Nat × Nat)) (hnd : (F0.map Prod.fst).Nodup) :
    (F0.map Prod.fst).map (freqOf F0) = F0.map Prod.snd := by
  rw [List.map_map]
  apply List.map_congr_left
  intro p hp
  exact freqOf_of_mem F0 hnd p hp

theorem length_le_sum_lengths (m : HuffmanCodeMap) :
    ∀ p ∈ m, p.2.length ≤ (m.map fun p => p.2.length).sum := by
  induction m with
  | nil => simp
  | cons q t ih =>
    intro p hp
    rw [List.map_cons, List.sum_cons]
    rcases List.mem_cons.1 hp with rfl | hp
    · omega
    · have := ih p hp
      omega

theorem tableCost_codeTable (L : StdLib) (b : List Nat) (hne : b ≠ []) :
    ∃ root, finalQueue L b = [root] ∧ tableCost (countFreq b) (codeTable L b) = root.cost := by
  obtain ⟨root, hq, _, hperm, e⟩ := codeTable_spec L b hne
  refine ⟨root, hq, ?_⟩
  rw [e, tableCost_codes _ _ _ (fun p hp =>
    freqOf_of_mem _ (countFreq_keys_nodup b) p (hperm.mem_iff.1 hp))]
  simp

/-- The code table costs no more than any prefix-free binary table over the same keys. -/
theorem codeTable_cost_le (L : StdLib) (bufin : List Nat) (hne : bufin ≠ [])
    (hlen : bufin.length < 2 ^ 32) (other : HuffmanCodeMap)
    (hkeys : (other.map Prod.fst).Perm ((codeTable L bufin).map Prod.fst))
    (hbin : ∀ p ∈ other, ∀ c ∈ p.2, c = 48 ∨ c = 49)
    (hpf : other.Pairwise (fun p q => ¬ p.2 <+: q.2 ∧ ¬ q.2 <+: p.2)) :
    tableCost (countFreq bufin) (codeTable L bufin) ≤ tableCost (countFreq bufin) other := by
  obtain ⟨root, e, _, hperm, hinv⟩ := finalQueue_inv L bufin hne hlen
  obtain ⟨root', e', hcost⟩ := tableCost_codeTable L bufin hne
  have hroot : root' = root := by
    rw [e] at e'
    exact (List.cons.inj e').1.symm
  subst hroot
  have hnd := countFreq_keys_nodup bufin
  -- the competitor as a depth assignment for the frequency table
  have hP0 : ((other.map fun p => (freqOf (countFreq bufin) p.1, p.2.length)).map
      Prod.fst).Perm ((countFreq bufin).map Prod.snd) := by
    have h1 : (other.map fun p => (freqOf (countFreq bufin) p.1, p.2.length)).map Prod.fst =
        (other.map Prod.fst).map (freqOf (countFreq bufin)) := by
      simp [List.map_map, Function.comp]
    have h2 : ((codeTable L bufin).map Prod.fst).Perm ((countFreq bufin).map Prod.fst) := by
      obtain ⟨r2, e2, _, hp2, hc2⟩ := codeTable_spec L bufin hne
      rw [hc2, codes_keys]
      exact hp2.map Prod.fst
    rw [h1, ← map_freqOf_keys _ hnd]
    exact (hkeys.trans h2).map _
  have hK : pairKraft (other.map fun p => (freqOf (countFreq bufin) p.1, p.2.length)) ≤ 1 := by
    have : pairKraft (other.map fun p => (freqOf (countFreq bufin) p.1, p.2.length)) =
        kraftSum other := by
      unfold pairKraft kraftSum
      rw [List.map_map]
      rfl
    rw [this]
    exact kraftSum_le_one _ other (length_le_sum_lengths other) hbin hpf
  obtain ⟨P, _, _, hc⟩ := hinv.2.2 _ hP0 hK
  have hcostO : pairCost (other.map fun p => (freqOf (countFreq bufin) p.1, p.2.length)) =
      tableCost (countFreq bufin) other := by
    unfold pairCost tableCost
    rw [List.map_map]
    rfl
  rw [hcost]
  rw [hcostO] at hc
  simp only [List.map_cons, List.map_nil, List.sum_cons, List.sum_nil] at hc
  omega

/-- C11. Optimality: for a non-empty buffer of fewer than `2^32` bytes, the code table
built by `huffman_encode` has the least total encoded length (sum over the byte values of
count times code length) among all prefix-free tables of binary codes over the same byte
values, whatever the iteration order and the tie-break. -/
theorem huffman_optimal (L : StdLib) (bufin : List Nat) (hne : bufin ≠ [])
    (hlen : bufin.length < 2 ^ 32) (other : HuffmanCodeMap)
    (hkeys : (other.map Prod.fst).Perm ((codeTable L bufin).map Prod.fst))
    (hbin : ∀ p ∈ other, ∀ c ∈ p.2, c = 48 ∨ c = 49)
    (hpf : other.Pairwise (fun p q => ¬ p.2 <+: q.2 ∧ ¬ q.2 <+: p.2)) :
    tableCost (countFreq bufin) (codeTable L bufin) ≤ tableCost (countFreq bufin) other :=
  codeTable_cost_le L bufin hne hlen other hkeys hbin hpf
set_option maxRecDepth 100000 in
theorem huffman_optimal_witness :
    (([(0x61, [48, 48]), (0x62, [48, 49]), (0x63, [49])] : HuffmanCodeMap).map Prod.fst).Perm
        ((codeTable StdLib.simple [0x61, 0x61, 0x61, 0x62, 0x62, 0x63]).map Prod.fst) ∧
      tableCost (countFreq [0x61, 0x61, 0x61, 0x62, 0x62, 0x63])
          (codeTable StdLib.simple [0x61, 0x61, 0x61, 0x62, 0x62, 0x63]) ≤
        tableCost (countFreq [0x61, 0x61, 0x61, 0x62, 0x62, 0x63])
          [(0x61, [48, 48]), (0x62, [48, 49]), (0x63, [49])] :=
  ⟨by decide,
    huffman_optimal StdLib.simple [0x61, 0x61, 0x61, 0x62, 0x62, 0x63] (by decide) (by decide)
      [(0x61, [48, 48]), (0x62, [48, 49]), (0x63, [49])] (by decide) (by decide)
      (by decide)⟩

/-! ## Frequency monotonicity -/

theorem tableCost_perm (F0 : List (Nat × Nat)) {m m' : HuffmanCodeMap} (h : m.Perm m') :
    tableCost F0 m = tableCost F0 m' :=
  (h.map _).sum_eq

theorem codeOf_of_mem (m : HuffmanCodeMap) (hnd : (m.map Prod.fst).Nodup) (k : Nat)
    (c : List Nat) (h : (k, c) ∈ m) : codeOf m k = c := by
  unfold codeOf
  rw [(mem_iff_lookup m hnd k c).1 h]
  rfl

theorem exists_code_of_mem (L : StdLib) (b : List Nat) (hne : b ≠ []) (x : Nat)
    (hx : x ∈ b) : (x, codeOf (codeTable L b) x) ∈ codeTable L b := by
  have hk := (mem_codeTable_keys L b hne x).2 hx
  obtain ⟨p, hp, hpx⟩ := List.mem_map.1 hk
  obtain ⟨k, c⟩ := p
  simp only at hpx
  subst hpx
  rw [codeOf_of_mem _ (codeTable_keys_nodup L b hne) k c hp]
  exact hp

theorem codeTable_chars (L : StdLib) (b : List Nat) (hne : b ≠ []) :
    ∀ p ∈ codeTable L b, ∀ c ∈ p.2, c = 48 ∨ c = 49 := by
  obtain ⟨root, _, _, _, e⟩ := codeTable_spec L b hne
  rw [e]
  exact codes_chars root [] (by simp)

theorem codeTable_pairwise (L : StdLib) (b : List Nat) (hne : b ≠ []) :
    (codeTable L b).Pairwise (fun p q => Incomparable p.2 q.2) := by
  obtain ⟨root, _, _, _, e⟩ := codeTable_spec L b hne
  rw [e]
  exact codes_pairwise root []

theorem swap_gain (fa fb la lb : Nat) (hf : fb < fa) (hl : lb < la) :
    fa * lb + fb * la < fa * la + fb * lb := by
  obtain ⟨u, rfl⟩ := Nat.exists_eq_add_of_lt hf
  obtain ⟨v, rfl⟩ := Nat.exists_eq_add_of_lt hl
  nlinarith [Nat.zero_le (u * v), Nat.zero_le u, Nat.zero_le v]

/-- C20. Frequency monotonicity: in a non-empty buffer of fewer than `2^32` bytes, a byte
value that occurs strictly more often than another gets a code that is no longer, under
every iteration order and tie-break. -/
theorem frequency_monotone (L : StdLib) (bufin : List Nat) (hlen : bufin.length < 2 ^ 32)
    (a b : Nat) (ha : a ∈ bufin) (hb : b ∈ bufin) (hcount : bufin.count b < bufin.count a) :
    (codeOf (codeTable L bufin) a).length ≤ (codeOf (codeTable L bufin) b).length := by
  have hne : bufin ≠ [] := List.ne_nil_of_mem ha
  have hab : a ≠ b := by intro e; subst e; omega
  have hnd := codeTable_keys_nodup L bufin hne
  have hma := exists_code_of_mem L bufin hne a ha
  have hmb := exists_code_of_mem L bufin hne b hb
  obtain ⟨T1, hT1⟩ := perm_cons_of_mem hma
  have hmb1 : (b, codeOf (codeTable L bufin) b) ∈ T1 := by
    have := hT1.mem_iff.1 hmb
    rcases List.mem_cons.1 this with h | h
    · exact absurd (congrArg Prod.fst h).symm hab
    · exact h
  obtain ⟨rest, hrest⟩ := perm_cons_of_mem hmb1
  have hperm : (codeTable L bufin).Perm
      ((a, codeOf (codeTable L bufin) a) :: (b, codeOf (codeTable L bufin) b) :: rest) :=
    hT1.trans (hrest.cons _)
  have hpw := (hperm.pairwise_iff (R := fun p q : Nat × List Nat => Incomparable p.2 q.2)
    (fun h => ⟨h.2, h.1⟩)).1 (codeTable_pairwise L bufin hne)
  have hchars := codeTable_chars L bufin hne
  by_contra hcon
  have hl : (codeOf (codeTable L bufin) b).length < (codeOf (codeTable L bufin) a).length := by
    omega
  have hopt := codeTable_cost_le L bufin hne hlen
    ((a, codeOf (codeTable L bufin) b) :: (b, codeOf (codeTable L bufin) a) :: rest)
    (by simpa using (hperm.map Prod.fst).symm)
    (by
      intro p hp
      simp only [List.mem_cons] at hp
      rcases hp with rfl | rfl | hp
      · exact hchars (b, codeOf (codeTable L bufin) b) hmb
      · exact hchars (a, codeOf (codeTable L bufin) a) hma
      · exact hchars _ (hperm.mem_iff.2 (by simp [hp])))
    (by
      simp only [List.pairwise_cons, List.mem_cons, forall_eq_or_imp] at hpw ⊢
      obtain ⟨⟨h1, h2⟩, h3, h4⟩ := hpw
      exact ⟨⟨⟨h1.2, h1.1⟩, h3⟩, h2, h4⟩)
  rw [tableCost_perm _ hperm] at hopt
  have hfa : freqOf (countFreq bufin) a = bufin.count a := by
    simp [freqOf, lookup_countFreq bufin hlen, ha]
  have hfb : freqOf (countFreq bufin) b = bufin.count b := by
    simp [freqOf, lookup_countFreq bufin hlen, hb]
  simp only [tableCost, List.map_cons, List.sum_cons, hfa, hfb] at hopt
  have := swap_gain _ _ _ _ hcount hl
  omega

theorem frequency_monotone_witness :
    [0x61, 0x61, 0x61, 0x62, 0x62, 0x63].count 0x63 <
        [0x61, 0x61, 0x61, 0x62, 0x62, 0x63].count 0x61 ∧
      (codeOf (codeTable StdLib.simple [0x61, 0x61, 0x61, 0x62, 0x62, 0x63]) 0x61).length ≤
        (codeOf (codeTable StdLib.simple [0x61, 0x61, 0x61, 0x62, 0x62, 0x63]) 0x63).length :=
  ⟨by decide,
    frequency_monotone StdLib.simple [0x61, 0x61, 0x61, 0x62, 0x62, 0x63] (by decide)
      0x61 0x63 (by decide) (by decide) (by decide)⟩

/-! ## Header parse of an emitted frame -/

theorem get?_append_add (pre rest : List Nat) (i : Nat) :
    (pre ++ rest).get? (pre.length + i) = rest.get? i := by
  rw [List.get?_eq_getElem?, List.get?_eq_getElem?, List.getElem?_append_right (by omega)]
  congr 1
  omega

theorem readCode_spec (pre code suf acc : List Nat) :
    readCode (pre ++ (code ++ suf)) code.length pre.length acc =
      some (acc ++ code, pre.length + code.length) := by
  induction code generalizing pre acc with
  | nil => simp [readCode]
  | cons c t ih =>
    have hget : (pre ++ (c :: t ++ suf)).get? pre.length = some c := by
      have := get?_append_add pre (c :: t ++ suf) 0
      rw [Nat.add_zero] at this
      rw [this]
      rfl
    have hbuf : pre ++ (c :: t ++ suf) = (pre ++ [c]) ++ (t ++ suf) := by simp
    have hih := ih (pre ++ [c]) (acc ++ [c])
    rw [← hbuf, List.length_append, List.length_singleton] at hih
    rw [List.length_cons, readCode, hget]
    simp only []
    rw [hih]
    simp [Nat.add_assoc, Nat.add_comm 1]

/-- The reverse table the header loop builds from a list of records. -/
theorem parseHeader_records (m : HuffmanCodeMap) (pre suf : List Nat)
    (rc : List (List Nat × Nat)) (fuel : Nat) (hfuel : m.length < fuel)
    (hkey : ∀ p ∈ m, p.1 ≠ 0) :
    parseHeader (pre ++ (headerBytes m ++ 0 :: suf)) fuel pre.length rc =
      some (pre.length + (headerBytes m).length,
        m.foldl (fun rc p => mapSet rc p.2 p.1) rc) := by
  induction m generalizing pre rc fuel with
  | nil =>
    obtain ⟨f, rfl⟩ : ∃ f, fuel = f + 1 := ⟨fuel - 1, by simp at hfuel; omega⟩
    have hget : (pre ++ (headerBytes [] ++ 0 :: suf)).get? pre.length = some 0 := by
      have := get?_append_add pre (headerBytes [] ++ 0 :: suf) 0
      rw [Nat.add_zero] at this
      rw [this]
      rfl
    rw [parseHeader, hget]
    simp [headerBytes]
  | cons p t ih =>
    obtain ⟨f, rfl⟩ : ∃ f, fuel = f + 1 := ⟨fuel - 1, by simp at hfuel; omega⟩
    obtain ⟨k, code⟩ := p
    have hk : k ≠ 0 := hkey (k, code) (by simp)
    have hshape : headerBytes ((k, code) :: t) ++ 0 :: suf =
        k :: code.length :: (code ++ (headerBytes t ++ 0 :: suf)) := by
      simp [headerBytes, recordBytes]
    have hget0 : (pre ++ (headerBytes ((k, code) :: t) ++ 0 :: suf)).get? pre.length =
        some k := by
      have := get?_append_add pre (headerBytes ((k, code) :: t) ++ 0 :: suf) 0
      rw [Nat.add_zero] at this
      rw [this, hshape]
      rfl
    have hget1 : (pre ++ (headerBytes ((k, code) :: t) ++ 0 :: suf)).get? (pre.length + 1) =
        some code.length := by
      rw [get?_append_add, hshape]
      rfl
    have hread : readCode (pre ++ (headerBytes ((k, code) :: t) ++ 0 :: suf)) code.length
        (pre.length + 2) [] = some (code, pre.length + 2 + code.length) := by
      have := readCode_spec (pre ++ [k, code.length]) code (headerBytes t ++ 0 :: suf) []
      rw [hshape]
      simpa using this
    have hbuf2 : pre ++ (headerBytes ((k, code) :: t) ++ 0 :: suf) =
        (pre ++ recordBytes (k, code)) ++ (headerBytes t ++ 0 :: suf) := by
      simp [headerBytes]
    have hlen2 : pre.length + 2 + code.length = (pre ++ recordBytes (k, code)).length := by
      simp [recordBytes]; omega
    have hih := ih (pre ++ recordBytes (k, code)) (mapSet rc code k) f
      (by simp at hfuel; omega) (fun q hq => hkey q (List.mem_cons_of_mem _ hq))
    rw [← hbuf2, ← hlen2] at hih
    rw [parseHeader, hget0]
    simp only [if_neg hk, hget1, hread]
    rw [hih, List.foldl_cons]
    simp [headerBytes, recordBytes]
    omega

theorem foldl_mapSet_fresh (m : HuffmanCodeMap) (rc : List (List Nat × Nat))
    (hnd : (rc.map Prod.fst ++ m.map Prod.snd).Nodup) :
    m.foldl (fun rc p => mapSet rc p.2 p.1) rc = rc ++ m.map (fun p => (p.2, p.1)) := by
  induction m generalizing rc with
  | nil => simp
  | cons p t ih =>
    have hfresh : p.2 ∉ rc.map Prod.fst := by
      intro h
      rw [List.nodup_append] at hnd
      exact hnd.2.2 h (by simp)
    rw [List.foldl_cons, mapSet_fresh _ _ _ hfresh, ih]
    · simp
    · simpa [List.map_append, List.append_assoc] using hnd

/-! ## The matching loop on an emitted bit string -/

theorem lookup_of_mem_unique {κ β : Type} [BEq κ] [LawfulBEq κ] (l : List (κ × β)) (k : κ) (v : β)
    (h : (k, v) ∈ l) (huniq : ∀ v', (k, v') ∈ l → v' = v) : l.lookup k = some v := by
  induction l with
  | nil => simp at h
  | cons p t ih =>
    obtain ⟨k', v'⟩ := p
    by_cases hk : k = k'
    · subst hk
      have := huniq v' (by simp)
      subst this
      simp [List.lookup]
    · have hkk : (k == k') = false := by simpa using hk
      rw [List.lookup_cons, hkk]
      refine ih ?_ (fun w hw => huniq w (List.mem_cons_of_mem _ hw))
      rcases List.mem_cons.1 h with e | h'
      · exact absurd (congrArg Prod.fst e) hk
      · exact h'

theorem lookup_none_of_not_mem {κ β : Type} [BEq κ] [LawfulBEq κ] (l : List (κ × β)) (k : κ)
    (h : ∀ p ∈ l, p.1 ≠ k) : l.lookup k = none := by
  induction l with
  | nil => rfl
  | cons p t ih =>
    obtain ⟨k', v'⟩ := p
    have hk : k ≠ k' := fun e => h (k', v') (by simp) e.symm
    have hkk : (k == k') = false := by simpa using hk
    rw [List.lookup_cons, hkk]
    exact ih (fun q hq => h q (List.mem_cons_of_mem _ hq))

theorem prefixFree_of_pairwise {m : HuffmanCodeMap}
    (h : m.Pairwise (fun p q => Incomparable p.2 q.2)) : PrefixFree m := by
  intro p hp q hq hpq
  have hsym : Symmetric (fun p q : Nat × List Nat => Incomparable p.2 q.2) :=
    fun p q h => ⟨h.2, h.1⟩
  exact h.forall hsym hp hq hpq

theorem lookup_rev_code {m : HuffmanCodeMap} (hpf : PrefixFree m) (k : Nat) (c : List Nat)
    (h : (k, c) ∈ m) : (m.map fun p => (p.2, p.1)).lookup c = some k := by
  apply lookup_of_mem_unique
  · exact List.mem_map.2 ⟨(k, c), h, rfl⟩
  · intro k' hk'
    obtain ⟨q, hq, e⟩ := List.mem_map.1 hk'
    obtain ⟨qk, qc⟩ := q
    simp only [Prod.mk.injEq] at e
    obtain ⟨rfl, rfl⟩ := e
    by_contra hne
    have := hpf (qk, qc) hq (k, qc) h (fun e => hne (congrArg Prod.fst e))
    exact this.1 (List.prefix_refl _)

theorem lookup_rev_proper {m : HuffmanCodeMap} (hpf : PrefixFree m) (k : Nat) (c s : List Nat)
    (h : (k, c) ∈ m) (hs : s <+: c) (hlt : s.length < c.length) :
    (m.map fun p => (p.2, p.1)).lookup s = none := by
  apply lookup_none_of_not_mem
  intro p hp e
  obtain ⟨q, hq, rfl⟩ := List.mem_map.1 hp
  simp only at e
  have hne : q ≠ (k, c) := by
    intro e2
    rw [e2] at e
    simp only at e
    rw [e] at hlt
    omega
  have := hpf q hq (k, c) h hne
  rw [e] at this
  exact this.1 hs

theorem decode_partial (rc : List (List Nat × Nat)) (d s1 s2 : List Nat)
    (hnone : ∀ j, 0 < j → j ≤ s2.length → rc.lookup (s1 ++ s2.take j) = none) :
    s2.foldl (decodeStep rc) ⟨d, s1⟩ = ⟨d, s1 ++ s2⟩ := by
  induction s2 generalizing s1 with
  | nil => simp
  | cons x t ih =>
    have h1 := hnone 1 (by omega) (by simp)
    simp only [List.take_succ_cons, List.take_zero] at h1
    rw [List.foldl_cons]
    have hstep : decodeStep rc ⟨d, s1⟩ x = ⟨d, s1 ++ [x]⟩ := by
      simp only [decodeStep, h1]
    rw [hstep, ih (s1 ++ [x])]
    · simp
    · intro j hj hjl
      have := hnone (j + 1) (by omega) (by simp; omega)
      simpa using this

theorem decode_code (rc : List (List Nat × Nat)) (d c : List Nat) (k : Nat) (hc : c ≠ [])
    (hnone : ∀ j, 0 < j → j < c.length → rc.lookup (c.take j) = none)
    (hsome : rc.lookup c = some k) :
    c.foldl (decodeStep rc) ⟨d, []⟩ = ⟨d ++ [k], []⟩ := by
  have hsplit : c = c.dropLast ++ [c.getLast hc] := (List.dropLast_append_getLast hc).symm
  have hlen : c.dropLast.length = c.length - 1 := List.length_dropLast c
  have hpos : 0 < c.length := List.length_pos.2 hc
  rw [hsplit, List.foldl_append, decode_partial rc d [] c.dropLast]
  · simp only [List.nil_append, List.foldl_cons, List.foldl_nil, decodeStep]
    rw [← hsplit, hsome]
  · intro j hj hjl
    have := hnone j hj (by omega)
    rw [List.nil_append]
    have htake : c.dropLast.take j = c.take j := by
      rw [List.dropLast_eq_take, List.take_take]
      congr 1
      omega
    rw [htake]
    exact this

theorem decode_entry {m : HuffmanCodeMap} (hpf : PrefixFree m) (d : List Nat) (k : Nat)
    (c : List Nat) (h : (k, c) ∈ m) (hc : c ≠ []) :
    c.foldl (decodeStep (m.map fun p => (p.2, p.1))) ⟨d, []⟩ = ⟨d ++ [k], []⟩ := by
  apply decode_code _ _ _ _ hc
  · intro j hj hjl
    exact lookup_rev_proper hpf k c _ h (List.take_prefix _ _)
      (by rw [List.length_take]; omega)
  · exact lookup_rev_code hpf k c h

theorem decode_data {m : HuffmanCodeMap} (hpf : PrefixFree m) (code : Nat → List Nat)
    (b d : List Nat) (hb : ∀ x ∈ b, (x, code x) ∈ m ∧ code x ≠ []) :
    (b.flatMap code).foldl (decodeStep (m.map fun p => (p.2, p.1))) ⟨d, []⟩ =
      ⟨d ++ b, []⟩ := by
  induction b generalizing d with
  | nil => simp
  | cons x t ih =>
    obtain ⟨hx, hne⟩ := hb x (by simp)
    rw [List.flatMap_cons, List.foldl_append, decode_entry hpf d x _ hx hne,
      ih _ (fun y hy => hb y (List.mem_cons_of_mem _ hy))]
    simp

theorem decode_zeros {m : HuffmanCodeMap} (hpf : PrefixFree m) (z k : Nat)
    (hz : (z, List.replicate k 48) ∈ m) (hk : 1 ≤ k) (r : Nat) (hr : r < k) (n : Nat)
    (d : List Nat) :
    (List.replicate (n * k + r) 48).foldl (decodeStep (m.map fun p => (p.2, p.1))) ⟨d, []⟩ =
      ⟨d ++ List.replicate n z, List.replicate r 48⟩ := by
  induction n generalizing d with
  | zero =>
    rw [Nat.zero_mul, Nat.zero_add, decode_partial]
    · simp
    · intro j hj hjl
      rw [List.length_replicate] at hjl
      rw [List.nil_append, List.take_replicate, Nat.min_eq_left hjl]
      apply lookup_rev_proper hpf z _ _ hz
      · exact ⟨List.replicate (k - j) 48, by
          rw [List.append_replicate_replicate]; congr 1; omega⟩
      · simp; omega
  | succ n ih =>
    have hsplit : List.replicate ((n + 1) * k + r) 48 =
        List.replicate k 48 ++ List.replicate (n * k + r) 48 := by
      rw [List.append_replicate_replicate]
      congr 1
      rw [Nat.add_mul]
      omega
    have hne : List.replicate k 48 ≠ [] := by
      intro e
      have := congrArg List.length e
      simp at this
      omega
    rw [hsplit, List.foldl_append, decode_entry hpf d z _ hz hne, ih]
    simp [List.replicate_succ, List.append_assoc]

theorem leftmost_code {t : HuffmanNode} (h : t.Proper) (str : List Nat) :
    ∃ z k, (z, str ++ List.replicate k 48) ∈ t.codes str ∧
      (1 < t.leaves.length → 1 ≤ k) := by
  induction h generalizing str with
  | leaf d f =>
    exact ⟨d, 0, by simp [HuffmanNode.codes], by simp [HuffmanNode.leaves]⟩
  | inner d f l r hl hr ihl _ =>
    have hne : ¬ (l = .null ∧ r = .null) := fun h => hl.ne_null h.1
    obtain ⟨z, k, hz, _⟩ := ihl (str ++ [48])
    refine ⟨z, k + 1, ?_, fun _ => by omega⟩
    simp only [HuffmanNode.codes, if_neg hne, List.nil_append, List.mem_append]
    left
    simpa [List.replicate_succ, List.append_assoc] using hz

theorem codes_ne_nil {t : HuffmanNode} (h : t.Proper) (hl : 1 < t.leaves.length) :
    ∀ p ∈ t.codes [], p.2 ≠ [] := by
  cases h with
  | leaf d f => simp [HuffmanNode.leaves] at hl
  | inner d f l r pl pr =>
    have hne : ¬ (l = .null ∧ r = .null) := fun h => pl.ne_null h.1
    intro p hp e
    simp only [HuffmanNode.codes, if_neg hne, List.nil_append, List.mem_append] at hp
    rcases hp with hp | hp
    · have := (codes_extend l _ p hp).length_le
      rw [e] at this
      simp at this
    · have := (codes_extend r _ p hp).length_le
      rw [e] at this
      simp at this

/-! ## Decoding an emitted frame -/

theorem nodup_codes_of_pairwise {m : HuffmanCodeMap}
    (h : m.Pairwise (fun p q => Incomparable p.2 q.2)) : (m.map Prod.snd).Nodup := by
  rw [List.Nodup, List.pairwise_map]
  refine h.imp ?_
  intro p q hpq e
  exact hpq.1 (e ▸ List.prefix_refl _)

/-- What `huffman_decode` returns on the frame laid out for a buffer of non-zero bytes with
at least two distinct values: the buffer, followed by one copy of the byte coded by zeros for
every full all-zero code that fits in the padding. -/
theorem huffman_decode_frameLayout (L : StdLib) (b : List Nat)
    (h2 : 2 ≤ (countFreq b).length) (h0 : 0 ∉ b) :
    ∃ z k, (z, List.replicate k 48) ∈ codeTable L b ∧ 1 ≤ k ∧
      huffman_decode (some (frameLayout L b)) =
        .returned 0 (some ⟨(b ++ List.replicate
            ((8 - (encodeBits (codeTable L b) b).length % 8) / k) z).take
              ((b ++ List.replicate
                ((8 - (encodeBits (codeTable L b) b).length % 8) / k) z).length % 2 ^ 32)
            ++ [0],
          (b ++ List.replicate
            ((8 - (encodeBits (codeTable L b) b).length % 8) / k) z).length % 2 ^ 32⟩) := by
  have hne : b ≠ [] := by
    intro e; subst e; simp [countFreq] at h2
  obtain ⟨root, _, hp, hperm, e⟩ := codeTable_spec L b hne
  have hleaves : 1 < root.leaves.length := by rw [hperm.length_eq]; omega
  obtain ⟨z, k, hz, hk⟩ := leftmost_code hp []
  rw [List.nil_append, ← e] at hz
  refine ⟨z, k, hz, hk hleaves, ?_⟩
  have hk1 := hk hleaves
  -- the table in iteration order
  have hm := L.codeOrder_perm (codeTable L b)
  have hpw : (L.codeOrder (codeTable L b)).Pairwise (fun p q => Incomparable p.2 q.2) :=
    (hm.pairwise_iff (R := fun p q : Nat × List Nat => Incomparable p.2 q.2)
      (fun h => ⟨h.2, h.1⟩)).2 (codeTable_pairwise L b hne)
  have hpf := prefixFree_of_pairwise hpw
  have hkeys : ∀ p ∈ L.codeOrder (codeTable L b), p.1 ≠ 0 := by
    intro p hp' e0
    have : p.1 ∈ b := (mem_codeTable_keys L b hne p.1).1
      (List.mem_map_of_mem _ (hm.mem_iff.1 hp'))
    rw [e0] at this
    exact h0 this
  -- header parse
  have hshape : frameLayout L b =
      [] ++ (headerBytes (L.codeOrder (codeTable L b)) ++ 0 :: packedBody (encodedStr L b)) := by
    simp [frameLayout]
  have hflen : (L.codeOrder (codeTable L b)).length < (frameLayout L b).length + 1 := by
    have := headerBytes_length_ge (L.codeOrder (codeTable L b))
    simp only [frameLayout, List.length_append]
    omega
  have hparse : parseHeader (frameLayout L b) ((frameLayout L b).length + 1) 0 [] =
      some ((headerBytes (L.codeOrder (codeTable L b))).length,
        (L.codeOrder (codeTable L b)).map fun p => (p.2, p.1)) := by
    have := parseHeader_records (L.codeOrder (codeTable L b)) []
      (packedBody (encodedStr L b)) [] ((frameLayout L b).length + 1) hflen hkeys
    rw [← hshape, foldl_mapSet_fresh _ _ (by simpa using nodup_codes_of_pairwise hpw)] at this
    simpa using this
  -- body expansion
  have hunpack : unpackBits (frameLayout L b)
      ((headerBytes (L.codeOrder (codeTable L b))).length + 1) = encodedStr L b := by
    have hs : frameLayout L b =
        (headerBytes (L.codeOrder (codeTable L b)) ++ [0]) ++ packedBody (encodedStr L b) := rfl
    have hl : (headerBytes (L.codeOrder (codeTable L b))).length + 1 =
        (headerBytes (L.codeOrder (codeTable L b)) ++ [0]).length := by simp
    rw [hs, hl, unpackBits_append]
    exact unpack_packedBody ((encodedStr L b).length / 8) _
      (by have := encodedStr_length_mod L b; omega) (encodedStr_chars L b hne)
  -- matching loop
  have hdata : ∀ x ∈ b, (x, codeOf (codeTable L b) x) ∈ L.codeOrder (codeTable L b) ∧
      codeOf (codeTable L b) x ≠ [] := by
    intro x hx
    have hmem := exists_code_of_mem L b hne x hx
    refine ⟨hm.mem_iff.2 hmem, ?_⟩
    have hmem' : (x, codeOf (codeTable L b) x) ∈ root.codes [] := by rw [← e]; exact hmem
    exact codes_ne_nil hp hleaves _ hmem'
  have hdec : decodeBits ((L.codeOrder (codeTable L b)).map fun p => (p.2, p.1))
      (encodedStr L b) =
        b ++ List.replicate ((8 - (encodeBits (codeTable L b) b).length % 8) / k) z := by
    unfold decodeBits encodedStr padBits
    rw [List.foldl_append, encodeBits_eq_flatMap, decode_data hpf _ b [] hdata]
    have hsplit := Nat.div_add_mod' (8 - (b.flatMap (codeOf (codeTable L b))).length % 8) k
    rw [← hsplit, decode_zeros hpf z k (hm.mem_iff.2 hz) hk1 _ (Nat.mod_lt _ (by omega))]
    rw [hsplit]
    simp
  have hlen0 : (frameLayout L b).length ≠ 0 := by
    simp [frameLayout]
  simp only [huffman_decode, if_neg hlen0, hparse, hunpack, hdec]

/-- Decoding what `huffman_encode` returns, when the frame fits the block and the decoded
length fits `uint32_t`: the buffer followed by `p / k` copies of the byte coded by zeros,
where `p` is the number of padding characters and `k` the length of the all-zero code. -/
theorem decode_encode_of_fits (L : StdLib) (bufin : List Nat)
    (hbytes : ∀ x ∈ bufin, x < 256) (h2 : 2 ≤ (countFreq bufin).length) (h0 : 0 ∉ bufin)
    (hcap : (frameLayout L bufin).length ≤ encodeCapacity L bufin)
    (hint : (frameLayout L bufin).length < 2 ^ 31) (hlen : bufin.length + 8 < 2 ^ 32) :
    ∃ z k, (z, List.replicate k 48) ∈ codeTable L bufin ∧ 1 ≤ k ∧
      (8 - (encodeBits (codeTable L bufin) bufin).length % 8) / k ≤ 8 ∧
      huffman_decode (huffman_encode L (some bufin)).frame =
        .returned 0 (some ⟨bufin ++ List.replicate
            ((8 - (encodeBits (codeTable L bufin) bufin).length % 8) / k) z ++ [0],
          bufin.length + (8 - (encodeBits (codeTable L bufin) bufin).length % 8) / k⟩) := by
  have hne : bufin ≠ [] := by
    intro e; subst e; simp [countFreq] at h2
  obtain ⟨z, k, hz, hk, hdec⟩ := huffman_decode_frameLayout L bufin h2 h0
  have hle : (8 - (encodeBits (codeTable L bufin) bufin).length % 8) / k ≤ 8 :=
    le_trans (Nat.div_le_self _ _) (by omega)
  refine ⟨z, k, hz, hk, hle, ?_⟩
  have hframe : (huffman_encode L (some bufin)).frame = some (frameLayout L bufin) := by
    rw [encode_outcome_of_fits L bufin hne hbytes hcap hint]
    simp only [Outcome.frame, List.take_left']
  have hmod : (bufin ++ List.replicate
      ((8 - (encodeBits (codeTable L bufin) bufin).length % 8) / k) z).length % 2 ^ 32 =
      bufin.length + (8 - (encodeBits (codeTable L bufin) bufin).length % 8) / k := by
    rw [List.length_append, List.length_replicate]
    exact Nat.mod_eq_of_lt (by omega)
  rw [hframe, hdec, hmod]
  have htake : (bufin ++ List.replicate
      ((8 - (encodeBits (codeTable L bufin) bufin).length % 8) / k) z).take
        (bufin.length + (8 - (encodeBits (codeTable L bufin) bufin).length % 8) / k) =
      bufin ++ List.replicate
        ((8 - (encodeBits (codeTable L bufin) bufin).length % 8) / k) z := by
    apply List.take_of_length_le
    simp
  rw [htake]

set_option maxRecDepth 100000 in
/-- The buffer `"aaabbc"`: 9 code characters, 7 of padding, an all-zero code of length 1, and
7 extra bytes `'a'` after the 6 decoded ones. -/
theorem decode_encode_example :
    huffman_decode
        (huffman_encode StdLib.simple (some [0x61, 0x61, 0x61, 0x62, 0x62, 0x63])).frame =
      .returned 0 (some ⟨[0x61, 0x61, 0x61, 0x62, 0x62, 0x63] ++
        List.replicate 7 0x61 ++ [0], 6 + 7⟩) := by
  decide

set_option maxRecDepth 100000 in
/-- C13. Spurious trailing output fails on the 128 distinct non-zero bytes of `wideInput`
(at least two distinct values, no zero byte): `huffman_encode` stores past the end of its
block and returns no frame, so there is nothing `huffman_decode` could decode, under every
iteration order and tie-break. -/
theorem trailing_output_fails_wideInput :
    2 ≤ (countFreq wideInput).length ∧ 0 ∉ wideInput ∧
      ∀ L : StdLib, huffman_encode L (some wideInput) = .undefined ∧
        (huffman_encode L (some wideInput)).frame = none := by
  refine ⟨by decide, by decide, ?_⟩
  intro L
  have h := (encode_overflow_of_many L wideInput wideInput_distinct).2
  exact ⟨h, by rw [h]; rfl⟩

end Huffman
